import Mathlib

/-!
Shallow embedding of `photo_organizer.py` (repository PhotoOrganizer).

The filesystem is modelled as a finite map from path strings to inode
identifiers, a metadata table indexed by inode, a set of existing
directories, and a set of directory paths whose creation fails
(`mkdirFail`, a deterministic model of `OSError` from `os.makedirs`).

Modelling conventions (noted where they matter for individual theorems):
* paths are canonical absolute strings, so `os.path.abspath` is the
  identity and `os.path.join a b` is `a ++ "/" ++ b`;
* only regular files carry content/EXIF/mtime metadata; a directory path
  has no readable metadata (candidate lists produced by the scanner
  contain only regular files);
* `os.makedirs` is modelled atomically: it either succeeds (creating the
  year, month and day directories) or fails leaving the tree unchanged;
* `shutil.move` and `os.remove` on an existing regular file succeed
  (no transient I/O faults are modelled for those two primitives);
* the MD5 accumulator of `hashlib` is modelled by the list of bytes fed
  so far; its finalisation `hexdigest` runs the actual MD5 compression.
-/

namespace PhotoOrg

/-! Characters and strings. -/

def strToLower (s : String) : String := ⟨s.data.map Char.toLower⟩

def digitVal (c : Char) : Nat := c.toNat - 48

def readNatChars (cs : List Char) : Nat := cs.foldl (fun a c => a * 10 + digitVal c) 0

/-- Model of `os.path.basename`: everything after the last slash. -/
def basenameChars (cs : List Char) : List Char := (cs.reverse.takeWhile (· != '/')).reverse

def basename (s : String) : String := ⟨basenameChars s.data⟩

/-- Model of `os.path.splitext` (Python semantics: split at the last dot
of the basename, unless every character before that dot is itself a dot). -/
def splitextChars (cs : List Char) : List Char × List Char :=
  let bnRev := cs.reverse.takeWhile (· != '/')
  let extRev := bnRev.takeWhile (· != '.')
  if extRev.length = bnRev.length then (cs, [])
  else if (bnRev.drop (extRev.length + 1)).all (· == '.') then (cs, [])
  else (cs.take (cs.length - (extRev.length + 1)), '.' :: extRev.reverse)

def splitext (s : String) : String × String :=
  let r := splitextChars s.data
  (⟨r.1⟩, ⟨r.2⟩)

/-- Model of `os.path.join` with a relative second component. -/
def joinPath (a b : String) : String := a ++ "/" ++ b

/-- Model of `datetime.strftime` with format `%m` or `%d`: zero-pad to two digits. -/
def pad2 (n : Nat) : String := if n < 10 then "0" ++ Nat.repr n else Nat.repr n

/-! The filesystem model. -/

structure FileMeta where
  content : List Nat
  readable : Bool
  exifOk : Bool
  tags : List (String × String)
  mtimeOk : Bool
  mtime : Nat

structure FS where
  files : List (String × Nat)
  meta : Nat → FileMeta
  dirs : List String
  mkdirFail : List String

def alookup : List (String × Nat) → String → Option Nat
  | [], _ => none
  | (q, i) :: t, p => if q = p then some i else alookup t p

def aerase : List (String × Nat) → String → List (String × Nat)
  | [], _ => []
  | (q, i) :: t, p => if q = p then t else (q, i) :: aerase t p

def isFile (fs : FS) (p : String) : Option Nat := alookup fs.files p

def isDir (fs : FS) (p : String) : Bool := decide (p ∈ fs.dirs)

/-- Model of `os.path.exists`. -/
def pathExists (fs : FS) (p : String) : Bool := (isFile fs p).isSome || isDir fs p

/-- Model of `os.path.samefile`: `none` models the `FileNotFoundError`
raised when either path does not exist; otherwise compares inodes. -/
def samefile (fs : FS) (p q : String) : Option Bool :=
  match isFile fs p, isFile fs q with
  | some i, some j => some (i == j)
  | some _, none => if isDir fs q then some false else none
  | none, some _ => if isDir fs p then some false else none
  | none, none =>
    if isDir fs p && isDir fs q then some (p == q)
    else none

/-- Model of `shutil.move` on a regular file (destination path unused). -/
def moveFile (fs : FS) (src dst : String) : FS :=
  match alookup fs.files src with
  | none => fs
  | some i => { fs with files := (dst, i) :: aerase fs.files src }

/-- Model of `os.remove` on a regular file. -/
def removeFile (fs : FS) (p : String) : FS := { fs with files := aerase fs.files p }

def addDir (fs : FS) (d : String) : FS :=
  if d ∈ fs.dirs then fs else { fs with dirs := d :: fs.dirs }

/-- Well-formedness of a filesystem state: path keys are distinct, inodes
are distinct (no hard links), and no path is simultaneously a file and a
directory. -/
def Wf (fs : FS) : Prop :=
  (fs.files.map Prod.fst).Nodup ∧ (fs.files.map Prod.snd).Nodup ∧
    ∀ pr ∈ fs.files, pr.1 ∉ fs.dirs

instance (fs : FS) : Decidable (Wf fs) := by
  unfold Wf; infer_instance

/-! MD5 (RFC 1321), over bytes represented as naturals below 256. -/

def rotl32 (x n : Nat) : Nat := (x * 2 ^ n + x / 2 ^ (32 - n)) % 4294967296

def bnot32 (x : Nat) : Nat := 4294967295 - x

def le4 (x : Nat) : List Nat := [x % 256, x / 256 % 256, x / 65536 % 256, x / 16777216 % 256]

def le8 (x : Nat) : List Nat := le4 (x % 4294967296) ++ le4 (x / 4294967296)

def md5K : List Nat :=
  [0xd76aa478, 0xe8c7b756, 0x242070db, 0xc1bdceee,
   0xf57c0faf, 0x4787c62a, 0xa8304613, 0xfd469501,
   0x698098d8, 0x8b44f7af, 0xffff5bb1, 0x895cd7be,
   0x6b901122, 0xfd987193, 0xa679438e, 0x49b40821,
   0xf61e2562, 0xc040b340, 0x265e5a51, 0xe9b6c7aa,
   0xd62f105d, 0x02441453, 0xd8a1e681, 0xe7d3fbc8,
   0x21e1cde6, 0xc33707d6, 0xf4d50d87, 0x455a14ed,
   0xa9e3e905, 0xfcefa3f8, 0x676f02d9, 0x8d2a4c8a,
   0xfffa3942, 0x8771f681, 0x6d9d6122, 0xfde5380c,
   0xa4beea44, 0x4bdecfa9, 0xf6bb4b60, 0xbebfbc70,
   0x289b7ec6, 0xeaa127fa, 0xd4ef3085, 0x04881d05,
   0xd9d4d039, 0xe6db99e5, 0x1fa27cf8, 0xc4ac5665,
   0xf4292244, 0x432aff97, 0xab9423a7, 0xfc93a039,
   0x655b59c3, 0x8f0ccc92, 0xffeff47d, 0x85845dd1,
   0x6fa87e4f, 0xfe2ce6e0, 0xa3014314, 0x4e0811a1,
   0xf7537e82, 0xbd3af235, 0x2ad7d2bb, 0xeb86d391]

def md5S : List Nat :=
  [7, 12, 17, 22, 7, 12, 17, 22, 7, 12, 17, 22, 7, 12, 17, 22,
   5, 9, 14, 20, 5, 9, 14, 20, 5, 9, 14, 20, 5, 9, 14, 20,
   4, 11, 16, 23, 4, 11, 16, 23, 4, 11, 16, 23, 4, 11, 16, 23,
   6, 10, 15, 21, 6, 10, 15, 21, 6, 10, 15, 21, 6, 10, 15, 21]

/-- Little-endian 32-bit word number `j` of a 64-byte chunk. -/
def chunkWord (bs : List Nat) (j : Nat) : Nat :=
  bs.getD (4 * j) 0 + 256 * bs.getD (4 * j + 1) 0 +
    65536 * bs.getD (4 * j + 2) 0 + 16777216 * bs.getD (4 * j + 3) 0

def md5Round (bs : List Nat) (st : Nat × Nat × Nat × Nat) (i : Nat) : Nat × Nat × Nat × Nat :=
  let (a, b, c, d) := st
  let f :=
    if i < 16 then Nat.lor (Nat.land b c) (Nat.land (bnot32 b) d)
    else if i < 32 then Nat.lor (Nat.land d b) (Nat.land (bnot32 d) c)
    else if i < 48 then Nat.xor (Nat.xor b c) d
    else Nat.xor c (Nat.lor b (bnot32 d))
  let g :=
    if i < 16 then i
    else if i < 32 then (5 * i + 1) % 16
    else if i < 48 then (3 * i + 5) % 16
    else (7 * i) % 16
  let tmp := (f + a + md5K.getD i 0 + chunkWord bs g) % 4294967296
  (d, (b + rotl32 tmp (md5S.getD i 0)) % 4294967296, b, c)

def md5Chunk (st : Nat × Nat × Nat × Nat) (bs : List Nat) : Nat × Nat × Nat × Nat :=
  let r := (List.range 64).foldl (md5Round bs) st
  ((st.1 + r.1) % 4294967296, (st.2.1 + r.2.1) % 4294967296,
   (st.2.2.1 + r.2.2.1) % 4294967296, (st.2.2.2 + r.2.2.2) % 4294967296)

def md5Blocks : (Nat × Nat × Nat × Nat) → List Nat → Nat → Nat × Nat × Nat × Nat
  | st, _, 0 => st
  | st, bs, k + 1 => md5Blocks (md5Chunk st (bs.take 64)) (bs.drop 64) k

def md5Pad (msg : List Nat) : List Nat :=
  msg ++ 128 :: List.replicate ((120 - (msg.length + 1) % 64) % 64) 0 ++
    le8 (msg.length * 8 % 18446744073709551616)

def hexChar (n : Nat) : Char := if n < 10 then Char.ofNat (48 + n) else Char.ofNat (87 + n)

def byteHex (b : Nat) : List Char := [hexChar (b / 16), hexChar (b % 16)]

/-- MD5 hex digest of a byte sequence (lowercase), the model of
`hashlib.md5(...).hexdigest()`. -/
def md5Hex (msg : List Nat) : String :=
  let padded := md5Pad msg
  let r := md5Blocks (0x67452301, 0xefcdab89, 0x98badcfe, 0x10325476) padded (padded.length / 64)
  ⟨(le4 r.1 ++ le4 r.2.1 ++ le4 r.2.2.1 ++ le4 r.2.2.2).flatMap byteHex⟩

/-! Part 2 of the source: `calculate_hash` and `find_duplicates`. -/

/-- One `hasher.update(buf)` call: the accumulator keeps the bytes fed so far. -/
def hasherUpdate (acc buf : List Nat) : List Nat := acc ++ buf

/-- The successive non-empty buffers returned by `f.read(65536)`. -/
def readBlocksAux : Nat → List Nat → List (List Nat)
  | 0, _ => []
  | k + 1, bs => if bs = [] then [] else bs.take 65536 :: readBlocksAux k (bs.drop 65536)

def readBlocks (bs : List Nat) : List (List Nat) := readBlocksAux (bs.length + 1) bs

/-- Model of `calculate_hash` (source lines 38-50): reads the file in
64 KiB blocks feeding each into the hasher; returns `none` on any
read/open failure. -/
def calculate_hash (fs : FS) (p : String) : Option String :=
  match isFile fs p with
  | some i =>
    let m := fs.meta i
    if m.readable then some (md5Hex ((readBlocks m.content).foldl hasherUpdate []))
    else none
  | none => none

/-- Model of `os.path.getsize`; succeeds on directories as well. -/
def getsize (fs : FS) (p : String) : Nat :=
  match isFile fs p with
  | some i => (fs.meta i).content.length
  | none => 4096

def dictAppend {α : Type} [DecidableEq α] :
    List (α × List String) → α → String → List (α × List String)
  | [], k, v => [(k, [v])]
  | (k2, l) :: t, k, v =>
    if k2 = k then (k2, l ++ [v]) :: t else (k2, l) :: dictAppend t k v

def dictSet {α : Type} [DecidableEq α] :
    List (α × List String) → α → List String → List (α × List String)
  | [], k, v => [(k, v)]
  | (k2, l) :: t, k, v =>
    if k2 = k then (k2, v) :: t else (k2, l) :: dictSet t k v

/-- The body of the size-grouping loop (source lines 61-73). -/
def sizeStep (fs : FS) (d : List (Nat × List String)) (p : String) : List (Nat × List String) :=
  if pathExists fs p then dictAppend d (getsize fs p) p else d

/-- The body of the hash-grouping loop (source lines 85-95). -/
def hashStep (fs : FS) (d : List (String × List String)) (p : String) :
    List (String × List String) :=
  match calculate_hash fs p with
  | some h => dictAppend d h p
  | none => d

/-- The body of the group-collection loop (source lines 98-100). -/
def collectStep (dups2 : List (String × List String)) (hp : String × List String) :
    List (String × List String) :=
  if 1 < hp.2.length then dictSet dups2 hp.1 hp.2 else dups2

/-- The body of the per-size-bucket loop (source lines 82-100). -/
def bucketStep (fs : FS) (dups : List (String × List String)) (sl : Nat × List String) :
    List (String × List String) :=
  if 1 < sl.2.length then (sl.2.foldl (hashStep fs) []).foldl collectStep dups
  else dups

/-- Model of `find_duplicates` (source lines 52-103): group by size,
then by MD5 inside each size bucket of two or more files; every hash
bucket of two or more files becomes a duplicate group. -/
def find_duplicates (fs : FS) (image_paths : List String) : List (String × List String) :=
  let files_by_size := image_paths.foldl (sizeStep fs) []
  files_by_size.foldl (bucketStep fs) []

/-! Part 4 of the source: date resolution (`get_photo_date`). -/

structure DateTime where
  year : Nat
  month : Nat
  day : Nat
  hour : Nat
  minute : Nat
  second : Nat
deriving DecidableEq

def isLeap (y : Nat) : Bool := y % 4 == 0 && (y % 100 != 0 || y % 400 == 0)

def daysInMonth (y m : Nat) : Nat :=
  if m = 2 then (if isLeap y then 29 else 28)
  else if m = 4 ∨ m = 6 ∨ m = 9 ∨ m = 11 then 30
  else 31

def spanDigits (cs : List Char) : List Char × List Char :=
  (cs.takeWhile Char.isDigit, cs.dropWhile Char.isDigit)

def isSpaceChar (c : Char) : Bool := c == ' ' || c == '\t' || c == '\n' || c == '\r'

/-- Model of `datetime.datetime.strptime(s, "%Y:%m:%d %H:%M:%S")`:
four year digits, one or two digits for the other fields, one or more
whitespace characters for the literal space, full-string match, and the
range checks performed by the regular expressions of `_strptime` together
with the `datetime` constructor (so second 60 and 61, accepted by the
regular expression but rejected by the constructor, fail overall). -/
def parseExifDatetime (s : String) : Option DateTime :=
  let cs := s.data
  let yds := cs.take 4
  let rest := cs.drop 4
  if yds.length = 4 ∧ yds.all Char.isDigit then
    match rest with
    | ':' :: r1 =>
      let mds := (spanDigits r1).1
      match (spanDigits r1).2 with
      | ':' :: r3 =>
        let dds := (spanDigits r3).1
        let r4 := (spanDigits r3).2
        let ws := r4.takeWhile isSpaceChar
        let r5 := r4.dropWhile isSpaceChar
        let hds := (spanDigits r5).1
        match (spanDigits r5).2 with
        | ':' :: r7 =>
          let mids := (spanDigits r7).1
          match (spanDigits r7).2 with
          | ':' :: r9 =>
            let sds := (spanDigits r9).1
            let r10 := (spanDigits r9).2
            let y := readNatChars yds
            let mo := readNatChars mds
            let d := readNatChars dds
            let h := readNatChars hds
            let mi := readNatChars mids
            let se := readNatChars sds
            if r10 = [] ∧ ws ≠ [] ∧
                1 ≤ mds.length ∧ mds.length ≤ 2 ∧ 1 ≤ dds.length ∧ dds.length ≤ 2 ∧
                1 ≤ hds.length ∧ hds.length ≤ 2 ∧ 1 ≤ mids.length ∧ mids.length ≤ 2 ∧
                1 ≤ sds.length ∧ sds.length ≤ 2 ∧
                1 ≤ y ∧ 1 ≤ mo ∧ mo ≤ 12 ∧ 1 ≤ d ∧ d ≤ daysInMonth y mo ∧
                h ≤ 23 ∧ mi ≤ 59 ∧ se ≤ 59 then
              some ⟨y, mo, d, h, mi, se⟩
            else none
          | _ => none
        | _ => none
      | _ => none
    | _ => none
  else none

/-- Civil date from days since 1970-01-01 (proleptic Gregorian). -/
def civilFromDays (z0 : Nat) : Nat × Nat × Nat :=
  let z := z0 + 719468
  let era := z / 146097
  let doe := z % 146097
  let yoe := (doe - doe / 1460 + doe / 36524 - doe / 146096) / 365
  let y := yoe + era * 400
  let doy := doe - (365 * yoe + yoe / 4 - yoe / 100)
  let mp := (5 * doy + 2) / 153
  let d := doy - (153 * mp + 2) / 5 + 1
  let m := if mp < 10 then mp + 3 else mp - 9
  (if m ≤ 2 then y + 1 else y, m, d)

/-- Model of `datetime.datetime.fromtimestamp` (UTC-as-local): `none`
models the `OverflowError`/`OSError` raised beyond year 9999. -/
def fromtimestampOpt (t : Nat) : Option DateTime :=
  let c := civilFromDays (t / 86400)
  if c.1 ≤ 9999 then
    some ⟨c.1, c.2.1, c.2.2, t % 86400 / 3600, t % 86400 % 3600 / 60, t % 86400 % 60⟩
  else none

def tagLookup : List (String × String) → String → Option String
  | [], _ => none
  | (k2, v) :: t, k => if k2 = k then some v else tagLookup t k

/-- Python `a or b` on optional strings: the empty string is falsy. -/
def pyOr (a b : Option String) : Option String :=
  match a with
  | some s => if s = "" then b else some s
  | none => b

/-- Model of `get_photo_date` (source lines 207-247): EXIF
DateTimeOriginal / DateTimeDigitized combined with Python `or`, parsed
with the fixed format; on any failure fall back to the modification
time; `none` only when even that cannot be read. -/
def get_photo_date (fs : FS) (p : String) : Option DateTime :=
  let exifDate : Option DateTime :=
    match isFile fs p with
    | some i =>
      let m := fs.meta i
      if m.exifOk then
        match pyOr (tagLookup m.tags "DateTimeOriginal") (tagLookup m.tags "DateTimeDigitized") with
        | some s => if s = "" then none else parseExifDatetime s
        | none => none
      else none
    | none => none
  match exifDate with
  | some d => some d
  | none =>
    match isFile fs p with
    | some i =>
      let m := fs.meta i
      if m.mtimeOk then fromtimestampOpt m.mtime else none
    | none => none

/-! The sorter (`sort_photos`, source lines 249-339). -/

/-- Model of `os.makedirs(day_folder, exist_ok=True)` for the three-level
date directory, atomically: no-op if the day directory exists; failure
(`none`) if its creation is blocked (deterministic `mkdirFail`, or a
regular file occupying the destination root or one of the three levels);
otherwise create all three levels. -/
def makedirs3 (fs : FS) (dest yearF monthF dayF : String) : Option FS :=
  if dayF ∈ fs.dirs then some fs
  else if dayF ∈ fs.mkdirFail ∨ (isFile fs dest).isSome = true ∨
      (isFile fs yearF).isSome = true ∨ (isFile fs monthF).isSome = true ∨
      (isFile fs dayF).isSome = true then none
  else some (addDir (addDir (addDir fs yearF) monthF) dayF)

/-- The candidate destination names tried by the collision loops:
index 0 is the initial name, index `k+1` is `base ++ "_" ++ k+1 ++ ext`. -/
def candAt (base ext nw : String) : Nat → String
  | 0 => nw
  | k + 1 => base ++ "_" ++ Nat.repr (k + 1) ++ ext

/-- The common shape of the two collision `while` loops: starting from
candidate `counter - 1`, advance while `stopHere` is false. `fuel` only
bounds the recursion; the callers pass enough fuel for termination. -/
def seekLoop (stopHere : String → Bool) (base ext : String) : String → Nat → Nat → String
  | nw, _, 0 => nw
  | nw, counter, f + 1 =>
    if stopHere nw then nw
    else seekLoop stopHere base ext (base ++ "_" ++ Nat.repr counter ++ ext) (counter + 1) f

def fuelOf (fs : FS) : Nat := fs.files.length + fs.dirs.length + 1

/-- The stop condition of the sorter's collision loop (source lines
305-317): stop on a free name, or break when the occupant is the very
same file as the source. -/
def sortStop (fs : FS) (p nw : String) : Bool :=
  !(pathExists fs nw) || (samefile fs p nw == some true)

structure SortState where
  fs : FS
  processed : Nat
  skipped : Nat
  newPaths : List String

/-- The `year_folder` of source line 284: `str(photo_date.year)`,
unpadded. -/
def yearDir (dest : String) (d : DateTime) : String := joinPath dest (Nat.repr d.year)

/-- The `month_folder` of source line 285: `strftime("%m")`. -/
def monthDir (dest : String) (d : DateTime) : String := joinPath (yearDir dest d) (pad2 d.month)

/-- The `day_folder` of source line 286: `strftime("%d")`. -/
def dayDir (dest : String) (d : DateTime) : String := joinPath (monthDir dest d) (pad2 d.day)

/-- The body of the `for filepath in image_paths` loop of `sort_photos`
(source lines 273-334). `newPaths` records where each input file ends up,
so that a second run can be fed the tree produced by the first. -/
def sortStep (dest : String) (st : SortState) (p : String) : SortState :=
  if pathExists st.fs p = false then
    { st with skipped := st.skipped + 1, newPaths := st.newPaths ++ [p] }
  else
    match get_photo_date st.fs p with
    | none => { st with skipped := st.skipped + 1, newPaths := st.newPaths ++ [p] }
    | some d =>
      match makedirs3 st.fs dest (yearDir dest d) (monthDir dest d) (dayDir dest d) with
      | none => { st with skipped := st.skipped + 1, newPaths := st.newPaths ++ [p] }
      | some fs1 =>
        let dst0 := joinPath (dayDir dest d) (basename p)
        let be := splitext dst0
        let r := seekLoop (sortStop fs1 p) be.1 be.2 dst0 1 (fuelOf fs1)
        if p = r ∧ pathExists fs1 r = true then
          { st with fs := fs1, newPaths := st.newPaths ++ [p] }
        else
          { fs := moveFile fs1 p r, processed := st.processed + 1,
            skipped := st.skipped, newPaths := st.newPaths ++ [r] }

/-- Model of `sort_photos` (source lines 249-339). Returns the final
filesystem, the processed (moved) and skipped counters, and the list of
current locations of the input files. -/
def sort_photos (fs : FS) (image_paths : List String) (dest : String) : SortState :=
  if image_paths = [] then ⟨fs, 0, 0, []⟩
  else if pathExists fs dest then
    image_paths.foldl (sortStep dest) ⟨fs, 0, 0, []⟩
  else if dest ∈ fs.mkdirFail then ⟨fs, 0, 0, image_paths⟩
  else image_paths.foldl (sortStep dest) ⟨addDir fs dest, 0, 0, []⟩

/-! Part 3 of the source: `handle_duplicates` (lines 106-203). -/

structure DupState where
  fs : FS
  responses : List String
  moved : Nat
  deleted : Nat
  crashed : Bool

/-- The body of the inner move loop (source lines 155-177): skip a
vanished candidate, otherwise move it to the target folder, suffixing
the name until free. -/
def moveCandidate (target : String) (acc : FS × Nat) (dup : String) : FS × Nat :=
  if pathExists acc.1 dup = false then acc
  else
    let newP := joinPath target (basename dup)
    let be := splitext newP
    let r := seekLoop (fun q => !(pathExists acc.1 q)) be.1 be.2 newP 1 (fuelOf acc.1)
    (moveFile acc.1 dup r, acc.2 + 1)

/-- The body of the inner delete loop (source lines 183-193): skip a
vanished candidate; `os.remove` succeeds only on a regular file (on a
directory it raises `OSError`, caught by the source). -/
def deleteCandidate (acc : FS × Nat) (dup : String) : FS × Nat :=
  if (isFile acc.1 dup).isSome = true then (removeFile acc.1 dup, acc.2 + 1) else acc

/-- The body of the `for hash_val, paths in duplicate_groups.items()`
loop (source lines 132-197). An empty group makes `paths[0]` raise an
uncaught `IndexError`, and an exhausted `input()` raises `EOFError`;
both are modelled by the sticky `crashed` flag which stops the run. -/
def processGroup (action target : String) (st : DupState) (g : String × List String) : DupState :=
  if st.crashed then st
  else
    match g.2 with
    | [] => { st with crashed := true }
    | _ :: rest =>
      if rest = [] then st
      else if action = "list" then st
      else if action = "move" then
        let r := rest.foldl (moveCandidate target) (st.fs, st.moved)
        { st with fs := r.1, moved := r.2 }
      else if action = "delete" then
        match st.responses with
        | [] => { st with crashed := true }
        | resp :: rs =>
          if strToLower resp = "o" then
            let r := rest.foldl deleteCandidate (st.fs, st.deleted)
            { st with fs := r.1, deleted := r.2, responses := rs }
          else { st with responses := rs }
      else st

/-- Model of `handle_duplicates` (source lines 106-203). `responses` is
the stream of answers `input()` will produce for the per-group delete
confirmations. -/
def handle_duplicates (fs : FS) (groups : List (String × List String))
    (action target : String) (responses : List String) : DupState :=
  if groups = [] then ⟨fs, responses, 0, 0, false⟩
  else
    let start : FS × String :=
      if action = "move" ∧ pathExists fs target = false then
        if target ∈ fs.mkdirFail then (fs, "list") else (addDir fs target, "move")
      else (fs, action)
    groups.foldl (processGroup start.2 target) ⟨start.1, responses, 0, 0, false⟩

/-- Lookup in the association-list model of a Python dict with list values. -/
def dlookup {α : Type} [DecidableEq α] : List (α × List String) → α → Option (List String)
  | [], _ => none
  | (k2, v) :: t, k => if k2 = k then some v else dlookup t k

/-! Concrete fixtures used by witnesses and counterexamples. -/

def mkMeta (content : List Nat) (tags : List (String × String)) (mtime : Nat) : FileMeta :=
  ⟨content, true, true, tags, true, mtime⟩

/-- Two byte-identical files, one distinct file, one file of unique size. -/
def fsDup : FS :=
  ⟨[("/p/a.jpg", 0), ("/p/b.jpg", 1), ("/p/c.jpg", 2), ("/p/d.jpg", 3)],
    fun i =>
      if i = 0 then mkMeta [1, 2, 3] [] 0
      else if i = 1 then mkMeta [1, 2, 3] [] 0
      else if i = 2 then mkMeta [7, 8, 9] [] 0
      else mkMeta [1, 2] [] 0,
    [], []⟩

def dupInputs : List String := ["/p/a.jpg", "/p/b.jpg", "/p/c.jpg", "/p/d.jpg"]

/-- The shape of a well-formed duplicate group: at least two members and
exactly the input files (in input order) of one size whose digest is the
group key. -/
def dupGood (fs : FS) (inputs : List String) (h : String) (g : List String) : Prop :=
  2 ≤ g.length ∧ ∃ s, g = inputs.filter
    (fun p => (pathExists fs p && (getsize fs p == s)) && (calculate_hash fs p == some h))

/-- A file already sitting at its own date destination. -/
def fsPlaced : FS :=
  ⟨[("/root/2020/05/17/a.jpg", 0)],
    fun _ => mkMeta [1] [("DateTimeOriginal", "2020:05:17 10:00:00")] 0,
    ["/root", "/root/2020", "/root/2020/05", "/root/2020/05/17"], []⟩

/-- A source file whose date destination is occupied by a distinct file. -/
def fsCollide : FS :=
  ⟨[("/src/a.jpg", 0), ("/root/2020/05/17/a.jpg", 1)],
    fun _ => mkMeta [1] [("DateTimeOriginal", "2020:05:17 10:00:00")] 0,
    ["/root", "/root/2020", "/root/2020/05", "/root/2020/05/17"], []⟩

def exifDT : DateTime := ⟨2020, 5, 17, 10, 0, 0⟩

/-- A file whose EXIF year has fewer than four decimal digits. -/
def fs999 : FS :=
  ⟨[("/pics/a.jpg", 0)],
    fun _ => mkMeta [1] [("DateTimeOriginal", "0999:05:17 10:00:00")] 0,
    ["/root"], []⟩

/-- A file with an empty DateTimeOriginal and a valid DateTimeDigitized. -/
def fsEmptyTag : FS :=
  ⟨[("/p/e.jpg", 0)],
    fun _ => mkMeta [1]
      [("DateTimeOriginal", ""), ("DateTimeDigitized", "2020:05:17 10:00:00")] 0,
    [], []⟩

/-- The date resolver as claim C5 words it: DateTimeDigitized is consulted
only when DateTimeOriginal is ABSENT; the found tag value is parsed with
the fixed format and on any failure the resolver falls back to the
modification time. (Contrast definition for the refinement check; the
model of the source is `get_photo_date`.) -/
def get_photo_date_claimC5 (fs : FS) (p : String) : Option DateTime :=
  let exifDate : Option DateTime :=
    match isFile fs p with
    | some i =>
      let m := fs.meta i
      if m.exifOk then
        match tagLookup m.tags "DateTimeOriginal" with
        | some s => parseExifDatetime s
        | none =>
          match tagLookup m.tags "DateTimeDigitized" with
          | some s => parseExifDatetime s
          | none => none
      else none
    | none => none
  match exifDate with
  | some d => some d
  | none =>
    match isFile fs p with
    | some i =>
      let m := fs.meta i
      if m.mtimeOk then fromtimestampOpt m.mtime else none
    | none => none

/-- A filesystem where the duplicate target folder cannot be created. -/
def fsMkFail : FS :=
  ⟨[("/p/a.jpg", 0), ("/p/b.jpg", 1)], fun _ => mkMeta [1] [] 0, [], ["/dup"]⟩

/-- A filesystem with an existing duplicate target folder. -/
def fsDupTarget : FS :=
  ⟨[("/p/a.jpg", 0), ("/p/b.jpg", 1), ("/dup/b.jpg", 5)], fun _ => mkMeta [1] [] 0,
    ["/dup"], []⟩

/-- A regular file sitting at the month level of another file's date
directory: it blocks that file's `makedirs` in a first sorting run, and is
itself sorted away (by its modification time) during that run, so a
second run moves the blocked file. -/
def fsC1 : FS :=
  ⟨[("/src/a.jpg", 0), ("/dst/2020/05", 1)],
    fun i =>
      if i = 0 then mkMeta [1] [("DateTimeOriginal", "2020:05:17 10:00:00")] 0
      else mkMeta [2] [] 0,
    ["/src", "/dst"], []⟩

/-- No regular file of `fs` sits at `dest` itself or at depth at most
three below it (where the sorter's year/month/day directories live):
every file path that extends `dest ++ "/"` has at least three further
slashes after that prefix. -/
def NoShallowFiles (fs : FS) (dest : String) : Prop :=
  ∀ pr ∈ fs.files, pr.1 ≠ dest ∧
    (List.IsPrefix (dest.data ++ ['/']) pr.1.data →
      3 ≤ (pr.1.data.drop (dest.data.length + 1)).count '/')

instance (fs : FS) (dest : String) : Decidable (NoShallowFiles fs dest) := by
  unfold NoShallowFiles
  infer_instance

/-- The state reached by a path the sorter has already emitted into
`newPaths`: processing it again is a no-op. Either it no longer exists,
or it exists without a resolvable date, or its day directory is missing
and its creation fails, or it already sits in its own day directory under
its own basename. -/
def Stable (dest : String) (fs : FS) (q : String) : Prop :=
  pathExists fs q = false ∨
  (pathExists fs q = true ∧ get_photo_date fs q = none) ∨
  (∃ d, get_photo_date fs q = some d ∧
    dayDir dest d ∉ fs.dirs ∧ dayDir dest d ∈ fs.mkdirFail) ∨
  (∃ d i, get_photo_date fs q = some d ∧ isFile fs q = some i ∧
    dayDir dest d ∈ fs.dirs ∧ q = joinPath (dayDir dest d) (basename q))

/-! Association list lemmas. -/

theorem alookup_eq_some_mem : ∀ {l : List (String × Nat)} {p : String} {i : Nat},
    alookup l p = some i → (p, i) ∈ l := by
  intro l
  induction l with
  | nil => intro p i h; simp [alookup] at h
  | cons hd t ih =>
    intro p i h
    obtain ⟨q, j⟩ := hd
    by_cases hq : q = p
    · subst hq
      simp [alookup] at h
      simp [h]
    · simp [alookup, hq] at h
      exact List.mem_cons_of_mem _ (ih h)

theorem alookup_isSome_iff_mem {l : List (String × Nat)} {p : String} :
    (alookup l p).isSome = true ↔ p ∈ l.map Prod.fst := by
  induction l with
  | nil => simp [alookup]
  | cons hd t ih =>
    obtain ⟨q, j⟩ := hd
    by_cases hq : q = p
    · subst hq; simp [alookup]
    · simp [alookup, hq, ih, Ne.symm hq]

theorem alookup_eq_none_iff {l : List (String × Nat)} {p : String} :
    alookup l p = none ↔ p ∉ l.map Prod.fst := by
  rw [← alookup_isSome_iff_mem, Option.isSome_iff_exists]
  cases alookup l p <;> simp

theorem alookup_of_mem_nodup : ∀ {l : List (String × Nat)} {p : String} {i : Nat},
    (l.map Prod.fst).Nodup → (p, i) ∈ l → alookup l p = some i := by
  intro l
  induction l with
  | nil => intro p i _ h; simp at h
  | cons hd t ih =>
    intro p i nd h
    obtain ⟨q, j⟩ := hd
    simp only [List.map_cons, List.nodup_cons] at nd
    rcases List.mem_cons.mp h with h1 | h1
    · obtain ⟨rfl, rfl⟩ := Prod.mk.injEq .. ▸ h1
      simp [alookup]
    · have hq : q ≠ p := by
        rintro rfl
        exact nd.1 (List.mem_map.mpr ⟨(q, i), h1, rfl⟩)
      simp [alookup, hq]
      exact ih nd.2 h1

theorem aerase_sublist : ∀ (l : List (String × Nat)) (p : String),
    List.Sublist (aerase l p) l := by
  intro l p
  induction l with
  | nil => simp [aerase]
  | cons hd t ih =>
    obtain ⟨q, j⟩ := hd
    by_cases hq : q = p
    · simp [aerase, hq]
    · simpa [aerase, hq] using ih

theorem alookup_aerase_ne : ∀ {l : List (String × Nat)} {p q : String}, q ≠ p →
    alookup (aerase l p) q = alookup l q := by
  intro l
  induction l with
  | nil => intro p q _; simp [aerase]
  | cons hd t ih =>
    intro p q hne
    obtain ⟨k, j⟩ := hd
    by_cases hk : k = p
    · subst hk
      have hkq : k ≠ q := fun h => hne h.symm
      simp [aerase, alookup, hkq]
    · by_cases hkq : k = q
      · subst hkq; simp [aerase, hk, alookup]
      · simp [aerase, hk, alookup, hkq, ih hne]

theorem alookup_aerase_self {l : List (String × Nat)} {p : String}
    (nd : (l.map Prod.fst).Nodup) : alookup (aerase l p) p = none := by
  induction l with
  | nil => simp [aerase, alookup]
  | cons hd t ih =>
    obtain ⟨q, j⟩ := hd
    simp only [List.map_cons, List.nodup_cons] at nd
    by_cases hq : q = p
    · subst hq
      simp [aerase]
      exact alookup_eq_none_iff.mpr nd.1
    · simp [aerase, hq, alookup, ih nd.2]

/-! Facts about `Nat.repr`, needed because the collision loops build
name suffixes with `str(counter)`. -/

theorem digitVal_digitChar {m : Nat} (h : m < 10) : digitVal (Nat.digitChar m) = m := by
  interval_cases m <;> rfl

theorem isDigit_digitChar {m : Nat} (h : m < 10) : (Nat.digitChar m).isDigit = true := by
  interval_cases m <;> decide

theorem toDigitsCore_append (f : Nat) : ∀ (n : Nat) (ds : List Char),
    Nat.toDigitsCore 10 f n ds = Nat.toDigitsCore 10 f n [] ++ ds := by
  induction f with
  | zero => intro n ds; simp [Nat.toDigitsCore]
  | succ f ih =>
    intro n ds
    simp only [Nat.toDigitsCore]
    by_cases h : n / 10 = 0
    · simp [h]
    · simp only [h, if_false]
      rw [ih (n / 10) (Nat.digitChar (n % 10) :: ds), ih (n / 10) [Nat.digitChar (n % 10)]]
      simp

theorem readFold_toDigitsCore (f : Nat) : ∀ (n acc : Nat), n < f →
    (Nat.toDigitsCore 10 f n []).foldl (fun a c => a * 10 + digitVal c) acc =
      acc * 10 ^ (Nat.toDigitsCore 10 f n []).length + n := by
  induction f with
  | zero => intro n acc h; omega
  | succ f ih =>
    intro n acc h
    simp only [Nat.toDigitsCore]
    by_cases h0 : n / 10 = 0
    · have hn : n < 10 := by omega
      have hm : n % 10 = n := Nat.mod_eq_of_lt hn
      have hd : digitVal (Nat.digitChar (n % 10)) = n := by
        rw [hm]; exact digitVal_digitChar hn
      simp [h0, List.foldl, hd]
    · have hge : 10 ≤ n := by
        by_contra hlt
        exact h0 (Nat.div_eq_of_lt (by omega))
      have hrec : n / 10 < f := by
        have h1 : n / 10 < n := Nat.div_lt_self (by omega) (by omega)
        omega
      simp only [h0, if_false]
      rw [toDigitsCore_append f (n / 10) [Nat.digitChar (n % 10)]]
      rw [List.foldl_append, ih (n / 10) acc hrec]
      simp only [List.foldl, List.length_append, List.length_cons, List.length_nil]
      rw [digitVal_digitChar (Nat.mod_lt n (by omega))]
      rw [pow_succ]
      have := Nat.div_add_mod n 10
      ring_nf
      omega

theorem readNatChars_repr (n : Nat) : readNatChars (Nat.repr n).data = n := by
  have h : (Nat.repr n).data = Nat.toDigitsCore 10 (n + 1) n [] := rfl
  rw [readNatChars, h, readFold_toDigitsCore (n + 1) n 0 (Nat.lt_succ_self n)]
  simp

theorem repr_injective {m n : Nat} (h : Nat.repr m = Nat.repr n) : m = n := by
  have := congrArg (fun s => readNatChars s.data) h
  simpa [readNatChars_repr] using this

theorem toDigitsCore_mem (f : Nat) : ∀ (n : Nat) (ds : List Char) (c : Char),
    c ∈ Nat.toDigitsCore 10 f n ds → c ∈ ds ∨ c.isDigit = true := by
  induction f with
  | zero => intro n ds c h; exact Or.inl (by simpa [Nat.toDigitsCore] using h)
  | succ f ih =>
    intro n ds c h
    simp only [Nat.toDigitsCore] at h
    by_cases h0 : n / 10 = 0
    · simp only [h0, if_true, List.mem_cons] at h
      rcases h with h | h
      · exact Or.inr (h ▸ isDigit_digitChar (Nat.mod_lt n (by omega)))
      · exact Or.inl h
    · simp only [h0, if_false] at h
      rcases ih (n / 10) _ c h with h1 | h1
      · rcases List.mem_cons.mp h1 with h2 | h2
        · exact Or.inr (h2 ▸ isDigit_digitChar (Nat.mod_lt n (by omega)))
        · exact Or.inl h2
      · exact Or.inr h1

theorem repr_isDigit {n : Nat} {c : Char} (h : c ∈ (Nat.repr n).data) : c.isDigit = true := by
  have h2 : c ∈ Nat.toDigitsCore 10 (n + 1) n [] := h
  rcases toDigitsCore_mem (n + 1) n [] c h2 with h3 | h3
  · simp at h3
  · exact h3

/-! C9: the hasher. -/

theorem foldl_hasherUpdate (acc : List Nat) (L : List (List Nat)) :
    L.foldl hasherUpdate acc = acc ++ L.flatten := by
  induction L generalizing acc with
  | nil => simp
  | cons hd t ih => simp [hasherUpdate, ih, List.append_assoc]

theorem readBlocksAux_join (f : Nat) : ∀ bs : List Nat, bs.length < f →
    (readBlocksAux f bs).flatten = bs := by
  induction f with
  | zero => intro bs h; omega
  | succ f ih =>
    intro bs h
    by_cases hb : bs = []
    · simp [readBlocksAux, hb]
    · have hlen : 0 < bs.length := List.length_pos.mpr hb
      simp only [readBlocksAux, if_neg hb, List.flatten_cons]
      rw [ih (bs.drop 65536) (by simp [List.length_drop]; omega)]
      exact List.take_append_drop _ _

theorem readBlocks_join (bs : List Nat) : (readBlocks bs).flatten = bs :=
  readBlocksAux_join _ bs (Nat.lt_succ_self _)

/-- C9: for every file path, `calculate_hash` either returns the MD5 hex
digest of the file's full byte content — the 64 KiB block reads reassemble
exactly the content fed to the hasher — or returns NONE on any read/access
failure (missing or unreadable file); being a total function of the
filesystem state, it never raises to the caller. -/
theorem c9_calculate_hash_spec (fs : FS) (p : String) :
    (∀ i, isFile fs p = some i → (fs.meta i).readable = true →
      calculate_hash fs p = some (md5Hex (fs.meta i).content)) ∧
    (calculate_hash fs p = none ↔
      isFile fs p = none ∨ ∃ i, isFile fs p = some i ∧ (fs.meta i).readable = false) := by
  constructor
  · intro i hi hr
    simp [calculate_hash, hi, hr, foldl_hasherUpdate, readBlocks_join]
  · constructor
    · intro h
      cases hi : isFile fs p with
      | none => exact Or.inl rfl
      | some i =>
        refine Or.inr ⟨i, rfl, ?_⟩
        by_contra hr
        have hr2 : (fs.meta i).readable = true := by
          cases h2 : (fs.meta i).readable
          · exact absurd h2 hr
          · rfl
        simp [calculate_hash, hi, hr2] at h
    · intro h
      rcases h with h | ⟨i, hi, hr⟩
      · simp [calculate_hash, h]
      · simp [calculate_hash, hi, hr]

/-- Witness for C9 at a concrete readable file. -/
theorem c9_witness :
    calculate_hash fsDup "/p/a.jpg" = some (md5Hex [1, 2, 3]) :=
  (c9_calculate_hash_spec fsDup "/p/a.jpg").1 0 rfl rfl

/-! Dictionary lemmas, and the characterization of the three folds
inside `find_duplicates`. -/

theorem dlookup_dictAppend_eq {α : Type} [DecidableEq α]
    (d : List (α × List String)) (k : α) (v : String) :
    dlookup (dictAppend d k v) k = some ((dlookup d k).getD [] ++ [v]) := by
  induction d with
  | nil => simp [dictAppend, dlookup]
  | cons hd t ih =>
    obtain ⟨k2, l⟩ := hd
    by_cases hk : k2 = k
    · subst hk; simp [dictAppend, dlookup]
    · simp [dictAppend, dlookup, hk, ih]

theorem dlookup_dictAppend_ne {α : Type} [DecidableEq α]
    (d : List (α × List String)) (k : α) (v : String) (k2 : α) (hne : k2 ≠ k) :
    dlookup (dictAppend d k v) k2 = dlookup d k2 := by
  induction d with
  | nil => simp [dictAppend, dlookup, Ne.symm hne]
  | cons hd t ih =>
    obtain ⟨k3, l⟩ := hd
    by_cases hk : k3 = k
    · subst hk
      simp [dictAppend, dlookup, Ne.symm hne]
    · by_cases hk2 : k3 = k2
      · subst hk2; simp [dictAppend, hk, dlookup]
      · simp [dictAppend, hk, dlookup, hk2, ih]

theorem mem_keys_dictAppend {α : Type} [DecidableEq α]
    (d : List (α × List String)) (k : α) (v : String) (k2 : α) :
    k2 ∈ (dictAppend d k v).map Prod.fst ↔ k2 ∈ d.map Prod.fst ∨ k2 = k := by
  induction d with
  | nil => simp [dictAppend]
  | cons hd t ih =>
    obtain ⟨k3, l⟩ := hd
    by_cases hk : k3 = k
    · subst hk; simp [dictAppend]; tauto
    · simp [dictAppend, hk, ih]; tauto

theorem nodup_keys_dictAppend {α : Type} [DecidableEq α]
    {d : List (α × List String)} (k : α) (v : String)
    (nd : (d.map Prod.fst).Nodup) : ((dictAppend d k v).map Prod.fst).Nodup := by
  induction d with
  | nil => simp [dictAppend]
  | cons hd t ih =>
    obtain ⟨k3, l⟩ := hd
    simp only [List.map_cons, List.nodup_cons] at nd
    by_cases hk : k3 = k
    · subst hk; simpa [dictAppend] using nd
    · simp only [dictAppend, hk, if_false, List.map_cons, List.nodup_cons]
      exact ⟨fun hmem => by
        rcases (mem_keys_dictAppend t k v k3).mp hmem with h | h
        · exact nd.1 h
        · exact hk h, ih nd.2⟩

theorem dlookup_dictSet_eq {α : Type} [DecidableEq α]
    (d : List (α × List String)) (k : α) (v : List String) :
    dlookup (dictSet d k v) k = some v := by
  induction d with
  | nil => simp [dictSet, dlookup]
  | cons hd t ih =>
    obtain ⟨k2, l⟩ := hd
    by_cases hk : k2 = k
    · subst hk; simp [dictSet, dlookup]
    · simp [dictSet, dlookup, hk, ih]

theorem dlookup_dictSet_ne {α : Type} [DecidableEq α]
    (d : List (α × List String)) (k : α) (v : List String) (k2 : α) (hne : k2 ≠ k) :
    dlookup (dictSet d k v) k2 = dlookup d k2 := by
  induction d with
  | nil => simp [dictSet, dlookup, Ne.symm hne]
  | cons hd t ih =>
    obtain ⟨k3, l⟩ := hd
    by_cases hk : k3 = k
    · subst hk
      simp [dictSet, dlookup, Ne.symm hne]
    · by_cases hk2 : k3 = k2
      · subst hk2; simp [dictSet, hk, dlookup]
      · simp [dictSet, hk, dlookup, hk2, ih]

theorem mem_keys_dictSet {α : Type} [DecidableEq α]
    (d : List (α × List String)) (k : α) (v : List String) (k2 : α) :
    k2 ∈ (dictSet d k v).map Prod.fst ↔ k2 ∈ d.map Prod.fst ∨ k2 = k := by
  induction d with
  | nil => simp [dictSet]
  | cons hd t ih =>
    obtain ⟨k3, l⟩ := hd
    by_cases hk : k3 = k
    · subst hk; simp [dictSet]; tauto
    · simp [dictSet, hk, ih]; tauto

theorem nodup_keys_dictSet {α : Type} [DecidableEq α]
    {d : List (α × List String)} (k : α) (v : List String)
    (nd : (d.map Prod.fst).Nodup) : ((dictSet d k v).map Prod.fst).Nodup := by
  induction d with
  | nil => simp [dictSet]
  | cons hd t ih =>
    obtain ⟨k3, l⟩ := hd
    simp only [List.map_cons, List.nodup_cons] at nd
    by_cases hk : k3 = k
    · subst hk; simpa [dictSet] using nd
    · simp only [dictSet, hk, if_false, List.map_cons, List.nodup_cons]
      exact ⟨fun hmem => by
        rcases (mem_keys_dictSet t k v k3).mp hmem with h | h
        · exact nd.1 h
        · exact hk h, ih nd.2⟩

theorem dlookup_of_mem_nodup {α : Type} [DecidableEq α] :
    ∀ {d : List (α × List String)} {k : α} {v : List String},
    (d.map Prod.fst).Nodup → (k, v) ∈ d → dlookup d k = some v := by
  intro d
  induction d with
  | nil => intro k v _ h; simp at h
  | cons hd t ih =>
    intro k v nd h
    obtain ⟨k2, l⟩ := hd
    simp only [List.map_cons, List.nodup_cons] at nd
    rcases List.mem_cons.mp h with h1 | h1
    · obtain ⟨rfl, rfl⟩ := Prod.mk.injEq .. ▸ h1
      simp [dlookup]
    · have hk : k2 ≠ k := by
        rintro rfl
        exact nd.1 (List.mem_map.mpr ⟨(k2, v), h1, rfl⟩)
      simp [dlookup, hk]
      exact ih nd.2 h1

theorem sizeFold_char (fs : FS) :
    ∀ (rest pre : List String) (d : List (Nat × List String)),
    (∀ s l, dlookup d s = some l →
      l = pre.filter (fun p => pathExists fs p && (getsize fs p == s))) →
    (∀ s, dlookup d s = none →
      pre.filter (fun p => pathExists fs p && (getsize fs p == s)) = []) →
    (d.map Prod.fst).Nodup →
    (∀ s l, dlookup (rest.foldl (sizeStep fs) d) s = some l →
      l = (pre ++ rest).filter (fun p => pathExists fs p && (getsize fs p == s))) ∧
    ((rest.foldl (sizeStep fs) d).map Prod.fst).Nodup := by
  intro rest
  induction rest with
  | nil =>
    intro pre d h1 h2 h3
    simpa using ⟨h1, h3⟩
  | cons p rest ih =>
    intro pre d h1 h2 h3
    simp only [List.foldl_cons, sizeStep]
    by_cases hex : pathExists fs p
    · have h1' : ∀ s l, dlookup (dictAppend d (getsize fs p) p) s = some l →
          l = (pre ++ [p]).filter (fun q => pathExists fs q && (getsize fs q == s)) := by
        intro s l hl
        by_cases hs : s = getsize fs p
        · subst hs
          rw [dlookup_dictAppend_eq] at hl
          cases hd : dlookup d (getsize fs p) with
          | some l0 =>
            rw [hd] at hl
            simp only [Option.getD_some, Option.some.injEq] at hl
            rw [← hl, h1 _ _ hd]
            simp [List.filter_append, hex]
          | none =>
            rw [hd] at hl
            simp only [Option.getD_none, List.nil_append, Option.some.injEq] at hl
            rw [← hl, List.filter_append]
            rw [h2 _ hd]
            simp [hex]
        · rw [dlookup_dictAppend_ne _ _ _ _ hs] at hl
          rw [h1 _ _ hl, List.filter_append]
          have : (getsize fs p == s) = false := by
            simp only [beq_eq_false_iff_ne, ne_eq]
            exact fun h => hs h.symm
          simp [this]
      have h2' : ∀ s, dlookup (dictAppend d (getsize fs p) p) s = none →
          (pre ++ [p]).filter (fun q => pathExists fs q && (getsize fs q == s)) = [] := by
        intro s hl
        by_cases hs : s = getsize fs p
        · subst hs; rw [dlookup_dictAppend_eq] at hl; cases hl
        · rw [dlookup_dictAppend_ne _ _ _ _ hs] at hl
          rw [List.filter_append, h2 _ hl]
          have : (getsize fs p == s) = false := by
            simp only [beq_eq_false_iff_ne, ne_eq]
            exact fun h => hs h.symm
          simp [this]
      have h3' := nodup_keys_dictAppend (d := d) (getsize fs p) p h3
      have := ih (pre ++ [p]) _ h1' h2' h3'
      simpa [hex, List.append_assoc] using this
    · have h1' : ∀ s l, dlookup d s = some l →
          l = (pre ++ [p]).filter (fun q => pathExists fs q && (getsize fs q == s)) := by
        intro s l hl
        rw [h1 _ _ hl, List.filter_append]
        simp [hex]
      have h2' : ∀ s, dlookup d s = none →
          (pre ++ [p]).filter (fun q => pathExists fs q && (getsize fs q == s)) = [] := by
        intro s hl
        rw [List.filter_append, h2 _ hl]
        simp [hex]
      have := ih (pre ++ [p]) d h1' h2' h3
      simpa [hex, List.append_assoc] using this

theorem hashFold_char (fs : FS) :
    ∀ (rest pre : List String) (d : List (String × List String)),
    (∀ h l, dlookup d h = some l →
      l = pre.filter (fun p => calculate_hash fs p == some h)) →
    (∀ h, dlookup d h = none →
      pre.filter (fun p => calculate_hash fs p == some h) = []) →
    (d.map Prod.fst).Nodup →
    (∀ h l, dlookup (rest.foldl (hashStep fs) d) h = some l →
      l = (pre ++ rest).filter (fun p => calculate_hash fs p == some h)) ∧
    ((rest.foldl (hashStep fs) d).map Prod.fst).Nodup := by
  intro rest
  induction rest with
  | nil =>
    intro pre d h1 h2 h3
    simpa using ⟨h1, h3⟩
  | cons p rest ih =>
    intro pre d h1 h2 h3
    simp only [List.foldl_cons, hashStep]
    cases hh : calculate_hash fs p with
    | some hp =>
      have h1' : ∀ h l, dlookup (dictAppend d hp p) h = some l →
          l = (pre ++ [p]).filter (fun q => calculate_hash fs q == some h) := by
        intro h l hl
        by_cases hs : h = hp
        · subst hs
          rw [dlookup_dictAppend_eq] at hl
          cases hd : dlookup d h with
          | some l0 =>
            rw [hd] at hl
            simp only [Option.getD_some, Option.some.injEq] at hl
            rw [← hl, h1 _ _ hd]
            simp [List.filter_append, hh]
          | none =>
            rw [hd] at hl
            simp only [Option.getD_none, List.nil_append, Option.some.injEq] at hl
            rw [← hl, List.filter_append, h2 _ hd]
            simp [hh]
        · rw [dlookup_dictAppend_ne _ _ _ _ hs] at hl
          rw [h1 _ _ hl, List.filter_append]
          have : (calculate_hash fs p == some h) = false := by
            simp only [hh, beq_eq_false_iff_ne, ne_eq, Option.some.injEq]
            exact fun h2 => hs h2.symm
          simp [this]
      have h2' : ∀ h, dlookup (dictAppend d hp p) h = none →
          (pre ++ [p]).filter (fun q => calculate_hash fs q == some h) = [] := by
        intro h hl
        by_cases hs : h = hp
        · subst hs; rw [dlookup_dictAppend_eq] at hl; cases hl
        · rw [dlookup_dictAppend_ne _ _ _ _ hs] at hl
          rw [List.filter_append, h2 _ hl]
          have : (calculate_hash fs p == some h) = false := by
            simp only [hh, beq_eq_false_iff_ne, ne_eq, Option.some.injEq]
            exact fun h2 => hs h2.symm
          simp [this]
      have h3' := nodup_keys_dictAppend (d := d) hp p h3
      have := ih (pre ++ [p]) _ h1' h2' h3'
      simpa [List.append_assoc] using this
    | none =>
      have h1' : ∀ h l, dlookup d h = some l →
          l = (pre ++ [p]).filter (fun q => calculate_hash fs q == some h) := by
        intro h l hl
        rw [h1 _ _ hl, List.filter_append]
        simp [hh]
      have h2' : ∀ h, dlookup d h = none →
          (pre ++ [p]).filter (fun q => calculate_hash fs q == some h) = [] := by
        intro h hl
        rw [List.filter_append, h2 _ hl]
        simp [hh]
      have := ih (pre ++ [p]) d h1' h2' h3
      simpa [List.append_assoc] using this

theorem dictSetFold_good (fs : FS) (inputs : List String) :
    ∀ (entries dups : List (String × List String)),
    (∀ hp ∈ entries, 1 < hp.2.length → dupGood fs inputs hp.1 hp.2) →
    (∀ h g, dlookup dups h = some g → dupGood fs inputs h g) →
    ((dups.map Prod.fst).Nodup) →
    (∀ h g, dlookup (entries.foldl collectStep dups) h = some g → dupGood fs inputs h g) ∧
    ((entries.foldl collectStep dups).map Prod.fst).Nodup := by
  intro entries
  induction entries with
  | nil => intro dups h1 h2 h3; exact ⟨h2, h3⟩
  | cons e rest ih =>
    intro dups h1 h2 h3
    simp only [List.foldl_cons, collectStep]
    by_cases hlen : 1 < e.2.length
    · simp only [hlen, if_true]
      refine ih _ (fun hp hm hl => h1 hp (List.mem_cons_of_mem _ hm) hl) ?_ ?_
      · intro h g hg
        by_cases hk : h = e.1
        · subst hk
          rw [dlookup_dictSet_eq] at hg
          have hg2 := Option.some.inj hg
          subst hg2
          exact h1 e (List.mem_cons_self ..) hlen
        · rw [dlookup_dictSet_ne _ _ _ _ hk] at hg
          exact h2 _ _ hg
      · exact nodup_keys_dictSet _ _ h3
    · simp only [hlen, if_false]
      exact ih _ (fun hp hm hl => h1 hp (List.mem_cons_of_mem _ hm) hl) h2 h3

theorem bucket_entries_good (fs : FS) (inputs : List String) (s : Nat) (l : List String)
    (hl : l = inputs.filter (fun p => pathExists fs p && (getsize fs p == s))) :
    ∀ hp ∈ l.foldl (hashStep fs) ([] : List (String × List String)),
      1 < hp.2.length → dupGood fs inputs hp.1 hp.2 := by
  intro hp hm hlen
  have hchar := hashFold_char fs l [] []
    (by intro h l2 h2; simp [dlookup] at h2)
    (by intro h _; simp)
    (by simp)
  have hlk : dlookup (l.foldl (hashStep fs) []) hp.1 = some hp.2 := by
    exact dlookup_of_mem_nodup hchar.2 hm
  have heq := hchar.1 hp.1 hp.2 hlk
  simp only [List.nil_append] at heq
  refine ⟨hlen, s, ?_⟩
  rw [heq, hl, List.filter_filter]
  apply List.filter_congr
  intro a _
  rw [Bool.and_comm]

theorem dupFold_char (fs : FS) (inputs : List String) :
    ∀ (buckets : List (Nat × List String)) (dups : List (String × List String)),
    (∀ sl ∈ buckets, ∃ s,
      sl.2 = inputs.filter (fun p => pathExists fs p && (getsize fs p == s))) →
    (∀ h g, dlookup dups h = some g → dupGood fs inputs h g) →
    ((dups.map Prod.fst).Nodup) →
    (∀ h g, dlookup (buckets.foldl (bucketStep fs) dups) h = some g →
      dupGood fs inputs h g) ∧
    ((buckets.foldl (bucketStep fs) dups).map Prod.fst).Nodup := by
  intro buckets
  induction buckets with
  | nil => intro dups _ h2 h3; exact ⟨h2, h3⟩
  | cons b rest ih =>
    intro dups h1 h2 h3
    simp only [List.foldl_cons, bucketStep]
    by_cases hlen : 1 < b.2.length
    · simp only [hlen, if_true]
      obtain ⟨s, hs⟩ := h1 b (List.mem_cons_self ..)
      have hgood := bucket_entries_good fs inputs s b.2 hs
      have hstep := dictSetFold_good fs inputs (b.2.foldl (hashStep fs) []) dups hgood h2 h3
      exact ih _ (fun sl hm => h1 sl (List.mem_cons_of_mem _ hm)) hstep.1 hstep.2
    · simp only [hlen, if_false]
      exact ih _ (fun sl hm => h1 sl (List.mem_cons_of_mem _ hm)) h2 h3

theorem find_duplicates_good (fs : FS) (inputs : List String) :
    (∀ h g, dlookup (find_duplicates fs inputs) h = some g → dupGood fs inputs h g) ∧
    ((find_duplicates fs inputs).map Prod.fst).Nodup := by
  have hsize := sizeFold_char fs inputs [] []
    (by intro s l2 h2; simp [dlookup] at h2)
    (by intro s _; simp)
    (by simp)
  have hbuckets : ∀ sl ∈ inputs.foldl (sizeStep fs) ([] : List (Nat × List String)), ∃ s,
      sl.2 = inputs.filter (fun p => pathExists fs p && (getsize fs p == s)) := by
    intro sl hm
    refine ⟨sl.1, ?_⟩
    have hlk := dlookup_of_mem_nodup hsize.2 hm
    simpa using hsize.1 sl.1 sl.2 hlk
  have := dupFold_char fs inputs (inputs.foldl (sizeStep fs) []) []
    hbuckets (by intro h g hg; simp [dlookup] at hg) (by simp)
  exact this

/-- C2: the mapping returned by `find_duplicates` is a partition of a
subset of the inputs: every group has at least two members, all members
of a group come from the input list and share the group's digest and one
common size, groups with distinct digests are disjoint, a digest names at
most one group, and each group lists its members as a sublist of the
input list, so the first member in traversal (encounter) order is first
in the group's list. -/
theorem c2_find_duplicates_partition (fs : FS) (inputs : List String) :
    ∀ hg ∈ find_duplicates fs inputs,
      2 ≤ hg.2.length ∧
      (∀ p ∈ hg.2, p ∈ inputs ∧ calculate_hash fs p = some hg.1) ∧
      (∀ p ∈ hg.2, ∀ q ∈ hg.2, getsize fs p = getsize fs q) ∧
      List.Sublist hg.2 inputs ∧
      (∀ hg2 ∈ find_duplicates fs inputs, hg.1 ≠ hg2.1 → ∀ p ∈ hg.2, p ∉ hg2.2) ∧
      (∀ hg2 ∈ find_duplicates fs inputs, hg.1 = hg2.1 → hg.2 = hg2.2) := by
  intro hg hm
  obtain ⟨hchar, hnd⟩ := find_duplicates_good fs inputs
  have hlk := dlookup_of_mem_nodup hnd hm
  obtain ⟨hlen, s, hs⟩ := hchar hg.1 hg.2 hlk
  have hmemfact : ∀ p ∈ hg.2, p ∈ inputs ∧
      (pathExists fs p && (getsize fs p == s)) = true ∧
      calculate_hash fs p = some hg.1 := by
    intro p hp
    rw [hs] at hp
    have := List.mem_filter.mp hp
    refine ⟨this.1, ?_, ?_⟩
    · have h2 := this.2
      simp only [Bool.and_eq_true] at h2
      simp [h2.1.1, h2.1.2]
    · have h2 := this.2
      simp only [Bool.and_eq_true, beq_iff_eq] at h2
      exact h2.2
  refine ⟨hlen, ?_, ?_, ?_, ?_, ?_⟩
  · intro p hp
    exact ⟨(hmemfact p hp).1, (hmemfact p hp).2.2⟩
  · intro p hp q hq
    have h1 := (hmemfact p hp).2.1
    have h2 := (hmemfact q hq).2.1
    simp only [Bool.and_eq_true, beq_iff_eq] at h1 h2
    rw [h1.2, h2.2]
  · rw [hs]; exact List.filter_sublist _
  · intro hg2 hm2 hne p hp hp2
    have f1 := (hmemfact p hp).2.2
    have hlk2 := dlookup_of_mem_nodup hnd hm2
    obtain ⟨_, s2, hs2⟩ := hchar hg2.1 hg2.2 hlk2
    rw [hs2] at hp2
    have := (List.mem_filter.mp hp2).2
    simp only [Bool.and_eq_true, beq_iff_eq] at this
    rw [f1] at this
    exact hne (Option.some.inj this.2)
  · intro hg2 hm2 hkey
    have hlk2 := dlookup_of_mem_nodup hnd hm2
    rw [← hkey] at hlk2
    rw [hlk] at hlk2
    exact Option.some.inj hlk2

/-- Witness for C2 at a concrete duplicate group produced from `fsDup`. -/
theorem c2_witness :
    2 ≤ (("5289df737df57326fcdd22597afb1fac", ["/p/a.jpg", "/p/b.jpg"]) :
      String × List String).2.length :=
  (c2_find_duplicates_partition fsDup dupInputs _ (by decide)).1

/-! Path-string lemmas. -/

theorem joinPath_data (a b : String) : (joinPath a b).data = a.data ++ '/' :: b.data := by
  show (a ++ "/" ++ b).data = _
  rw [String.data_append, String.data_append]
  simp

theorem takeWhile_ne_append (c : Char) (xs ys : List Char) (h : c ∉ xs) :
    (xs ++ c :: ys).takeWhile (· != c) = xs := by
  induction xs with
  | nil => simp [List.takeWhile_cons]
  | cons x t ih =>
    have hx : (x != c) = true := by
      simp only [bne_iff_ne, ne_eq]
      exact fun he => h (by rw [he]; exact List.mem_cons_self ..)
    have ht : c ∉ t := fun hm => h (List.mem_cons_of_mem _ hm)
    simp [List.takeWhile_cons, hx, ih ht]

theorem basenameChars_append (dir bn : List Char) (hb : '/' ∉ bn) :
    basenameChars (dir ++ '/' :: bn) = bn := by
  unfold basenameChars
  have hrev : (dir ++ '/' :: bn).reverse = bn.reverse ++ '/' :: dir.reverse := by
    rw [List.reverse_append, List.reverse_cons, List.append_assoc]
    simp
  rw [hrev, takeWhile_ne_append '/' bn.reverse dir.reverse (by simpa using hb),
    List.reverse_reverse]

theorem basename_join {a b : String} (hb : '/' ∉ b.data) : basename (joinPath a b) = b := by
  apply String.ext
  show basenameChars (joinPath a b).data = b.data
  rw [joinPath_data, basenameChars_append _ _ hb]

theorem basenameChars_no_slash (cs : List Char) : '/' ∉ basenameChars cs := by
  intro h
  rw [basenameChars, List.mem_reverse] at h
  have := List.mem_takeWhile_imp h
  simp at this

theorem basename_no_slash (s : String) : '/' ∉ (basename s).data :=
  basenameChars_no_slash s.data

theorem dropWhile_head_false {p : Char → Bool} :
    ∀ {l : List Char} {x : Char} {xs : List Char}, l.dropWhile p = x :: xs → p x = false := by
  intro l
  induction l with
  | nil => intro x xs h; simp [List.dropWhile] at h
  | cons a t ih =>
    intro x xs h
    rw [List.dropWhile_cons] at h
    by_cases ha : p a
    · rw [if_pos ha] at h
      exact ih h
    · rw [if_neg ha] at h
      obtain ⟨h1, _⟩ := List.cons.inj h
      rw [← h1]
      exact Bool.eq_false_iff.mpr ha

theorem splitextChars_join (dir bn : List Char) (hb : '/' ∉ bn) :
    ∃ stem ext : List Char,
      splitextChars (dir ++ '/' :: bn) = (dir ++ '/' :: stem, ext) ∧
      stem ++ ext = bn ∧ '/' ∉ stem ∧ '/' ∉ ext := by
  have hbnrev : ((dir ++ '/' :: bn).reverse).takeWhile (· != '/') = bn.reverse := by
    have hrev : (dir ++ '/' :: bn).reverse = bn.reverse ++ '/' :: dir.reverse := by
      rw [List.reverse_append, List.reverse_cons, List.append_assoc]
      simp
    rw [hrev]
    exact takeWhile_ne_append '/' bn.reverse dir.reverse (by simpa using hb)
  by_cases h1 : (bn.reverse.takeWhile (· != '.')).length = bn.reverse.length
  · refine ⟨bn, [], ?_, by simp, hb, by simp⟩
    simp only [splitextChars, hbnrev]
    rw [if_pos h1]
  · by_cases h2 : ((bn.reverse.drop ((bn.reverse.takeWhile (· != '.')).length + 1)).all
        (· == '.')) = true
    · refine ⟨bn, [], ?_, by simp, hb, by simp⟩
      simp only [splitextChars, hbnrev]
      rw [if_neg h1, if_pos h2]
    · set tw := bn.reverse.takeWhile (· != '.') with htw
      have hsplit := List.takeWhile_append_dropWhile (p := (· != '.')) (l := bn.reverse)
      rw [← htw] at hsplit
      cases hdw : bn.reverse.dropWhile (· != '.') with
      | nil =>
        exfalso
        rw [hdw, List.append_nil] at hsplit
        exact h1 (by rw [hsplit])
      | cons d dw =>
        rw [hdw] at hsplit
        have hd : d = '.' := by simpa using dropWhile_head_false hdw
        subst hd
        have hbn : bn = dw.reverse ++ '.' :: tw.reverse := by
          have h5 := congrArg List.reverse hsplit
          rw [List.reverse_reverse] at h5
          rw [← h5, List.reverse_append, List.reverse_cons, List.append_assoc]
          simp
        have hlb : bn.length = tw.length + 1 + dw.length := by
          have h6 := congrArg List.length hsplit
          simp only [List.length_append, List.length_cons] at h6
          simp only [List.length_reverse] at h6 ⊢
          omega
        refine ⟨dw.reverse, '.' :: tw.reverse, ?_, hbn.symm, ?_, ?_⟩
        · have hval : splitextChars (dir ++ '/' :: bn) =
              ((dir ++ '/' :: bn).take ((dir ++ '/' :: bn).length - (tw.length + 1)),
                '.' :: tw.reverse) := by
            simp only [splitextChars, hbnrev, ← htw]
            rw [if_neg h1, if_neg h2]
          rw [hval]
          have hlen : (dir ++ '/' :: bn).length - (tw.length + 1) =
              (dir ++ '/' :: dw.reverse).length := by
            simp only [List.length_append, List.length_cons, List.length_reverse]
            omega
          have hshape : dir ++ '/' :: bn = (dir ++ '/' :: dw.reverse) ++ '.' :: tw.reverse := by
            rw [hbn]
            simp [List.append_assoc]
          rw [hlen, hshape, List.take_left]
        · intro hc
          rw [List.mem_reverse] at hc
          apply hb
          rw [hbn]
          exact List.mem_append_left _ (by rwa [List.mem_reverse])
        · intro hc
          apply hb
          rw [hbn]
          rcases List.mem_cons.mp hc with h | h
          · exact List.mem_append_right _ (by rw [← h]; exact List.mem_cons_self ..)
          · rw [List.mem_reverse] at h
            exact List.mem_append_right _ (List.mem_cons_of_mem _ (by rwa [List.mem_reverse]))

theorem splitext_joinPath (dayF bn : String) (hb : '/' ∉ bn.data) :
    ∃ stem ext : List Char,
      splitext (joinPath dayF bn) = (⟨dayF.data ++ '/' :: stem⟩, ⟨ext⟩) ∧
      stem ++ ext = bn.data ∧ '/' ∉ stem ∧ '/' ∉ ext := by
  obtain ⟨stem, ext, heq, hcat, hs, he⟩ := splitextChars_join dayF.data bn.data hb
  refine ⟨stem, ext, ?_, hcat, hs, he⟩
  unfold splitext
  rw [joinPath_data, heq]

theorem repr_no_slash (n : Nat) : '/' ∉ (Nat.repr n).data :=
  fun h => absurd (repr_isDigit h) (by decide)

theorem repr_no_underscore (n : Nat) : '_' ∉ (Nat.repr n).data :=
  fun h => absurd (repr_isDigit h) (by decide)

/-! The collision loops. -/

theorem candAt_data_succ (base ext nw : String) (k : Nat) :
    (candAt base ext nw (k + 1)).data = base.data ++ '_' :: ((Nat.repr (k + 1)).data ++ ext.data) := by
  show (base ++ "_" ++ Nat.repr (k + 1) ++ ext).data = _
  rw [String.data_append, String.data_append, String.data_append]
  simp

theorem candAt_inj (dayF bn : String) {stem ext : List Char}
    (hcat : stem ++ ext = bn.data) :
    ∀ {j k : Nat}, candAt ⟨dayF.data ++ '/' :: stem⟩ ⟨ext⟩ (joinPath dayF bn) j =
      candAt ⟨dayF.data ++ '/' :: stem⟩ ⟨ext⟩ (joinPath dayF bn) k → j = k := by
  have maindiff : ∀ k : Nat, candAt ⟨dayF.data ++ '/' :: stem⟩ ⟨ext⟩ (joinPath dayF bn) 0 ≠
      candAt ⟨dayF.data ++ '/' :: stem⟩ ⟨ext⟩ (joinPath dayF bn) (k + 1) := by
    intro k h
    have hd := congrArg String.data h
    rw [candAt_data_succ] at hd
    have hd2 : (joinPath dayF bn).data = dayF.data ++ '/' :: (stem ++ '_' ::
        ((Nat.repr (k + 1)).data ++ ext)) := by
      rw [show candAt ⟨dayF.data ++ '/' :: stem⟩ ⟨ext⟩ (joinPath dayF bn) 0 =
          joinPath dayF bn from rfl] at hd
      rw [hd]
      simp
    rw [joinPath_data, ← hcat] at hd2
    have h3 := List.append_cancel_left ((List.cons.inj (List.append_cancel_left hd2)).2)
    have h4 := congrArg List.length h3
    simp at h4
    omega
  intro j k h
  match j, k with
  | 0, 0 => rfl
  | 0, k + 1 => exact absurd h (maindiff k)
  | j + 1, 0 => exact absurd h.symm (maindiff j)
  | j + 1, k + 1 =>
    have hd := congrArg String.data h
    rw [candAt_data_succ, candAt_data_succ] at hd
    have h2 := (List.cons.inj (List.append_cancel_left hd)).2
    have h3 := List.append_cancel_right h2
    have h4 : Nat.repr (j + 1) = Nat.repr (k + 1) := String.ext h3
    exact repr_injective h4

theorem seekLoop_eq_candAt (stop : String → Bool) (base ext nw : String) (J : Nat)
    (hstop : stop (candAt base ext nw J) = true)
    (hmin : ∀ j, j < J → stop (candAt base ext nw j) = false) :
    ∀ (f i : Nat), i ≤ J → J - i < f →
      seekLoop stop base ext (candAt base ext nw i) (i + 1) f = candAt base ext nw J := by
  intro f
  induction f with
  | zero => intro i h1 h2; omega
  | succ f ih =>
    intro i h1 h2
    rw [seekLoop]
    by_cases hs : stop (candAt base ext nw i) = true
    · have hiJ : i = J := by
        rcases Nat.lt_or_ge i J with h | h
        · rw [hmin i h] at hs; cases hs
        · omega
      rw [hiJ] at hs ⊢
      rw [if_pos hs]
    · have hsf : stop (candAt base ext nw i) = false := Bool.eq_false_iff.mpr hs
      have hiJ : i < J := by
        rcases Nat.lt_or_ge i J with h | h
        · exact h
        · have : i = J := by omega
          rw [this, hstop] at hsf; cases hsf
      rw [if_neg hs]
      have hcand : base ++ "_" ++ Nat.repr (i + 1) ++ ext = candAt base ext nw (i + 1) := rfl
      rw [hcand]
      exact ih (i + 1) hiJ (by omega)

theorem pathExists_mem {fs : FS} {q : String} (h : pathExists fs q = true) :
    q ∈ fs.files.map Prod.fst ++ fs.dirs := by
  simp only [pathExists, Bool.or_eq_true, isDir, decide_eq_true_eq, Option.isSome_iff_exists] at h
  rcases h with ⟨i, h⟩ | h
  · exact List.mem_append_left _ (alookup_isSome_iff_mem.mp (by simp [isFile] at h; simp [h]))
  · exact List.mem_append_right _ h

theorem exists_stop_cand (fs : FS) (stop : String → Bool) (cand : Nat → String)
    (hfree : ∀ k, pathExists fs (cand k) = false → stop (cand k) = true)
    (hinj : ∀ j k, cand j = cand k → j = k) :
    ∃ J, J < fuelOf fs ∧ stop (cand J) = true := by
  by_contra hcon
  push_neg at hcon
  have hocc : ∀ J, J < fuelOf fs → cand J ∈ fs.files.map Prod.fst ++ fs.dirs := by
    intro J hJ
    apply pathExists_mem
    cases hpe : pathExists fs (cand J)
    · exact absurd (hfree J hpe) (by simpa using hcon J hJ)
    · rfl
  have hnd : ((List.range (fuelOf fs)).map cand).Nodup :=
    (List.nodup_range _).map_on (fun x _ y _ h => hinj x y h)
  have hsub : ((List.range (fuelOf fs)).map cand).toFinset ⊆
      (fs.files.map Prod.fst ++ fs.dirs).toFinset := by
    intro x hx
    rw [List.mem_toFinset] at hx ⊢
    obtain ⟨j, hj, rfl⟩ := List.mem_map.mp hx
    exact hocc j (List.mem_range.mp hj)
  have h1 : ((List.range (fuelOf fs)).map cand).toFinset.card = fuelOf fs := by
    rw [List.toFinset_card_of_nodup hnd, List.length_map, List.length_range]
  have h2 := Finset.card_le_card hsub
  have h3 := List.toFinset_card_le (l := fs.files.map Prod.fst ++ fs.dirs)
  rw [h1] at h2
  have h4 : (fs.files.map Prod.fst ++ fs.dirs).length = fuelOf fs - 1 := by
    simp [fuelOf, List.length_append, List.length_map]
  rw [h4] at h3
  have h5 : 0 < fuelOf fs := Nat.succ_pos _
  omega

theorem seekLoop_spec (fs : FS) (stop : String → Bool) (base ext nw : String)
    (hfree : ∀ q, pathExists fs q = false → stop q = true)
    (hinj : ∀ j k, candAt base ext nw j = candAt base ext nw k → j = k) :
    ∃ J, seekLoop stop base ext nw 1 (fuelOf fs) = candAt base ext nw J ∧
      stop (candAt base ext nw J) = true ∧
      (∀ j, j < J → stop (candAt base ext nw j) = false) := by
  obtain ⟨J0, hJ0lt, hJ0⟩ := exists_stop_cand fs stop (candAt base ext nw)
    (fun k => hfree _) hinj
  have hex : ∃ j, stop (candAt base ext nw j) = true := ⟨J0, hJ0⟩
  have hstop := Nat.find_spec hex
  have hmin : ∀ j, j < Nat.find hex → stop (candAt base ext nw j) = false := by
    intro j hj
    have := Nat.find_min hex hj
    cases h : stop (candAt base ext nw j)
    · rfl
    · exact absurd h this
  have hJle : Nat.find hex ≤ J0 := Nat.find_min' hex hJ0
  refine ⟨Nat.find hex, ?_, hstop, hmin⟩
  have := seekLoop_eq_candAt stop base ext nw (Nat.find hex) hstop hmin (fuelOf fs) 0
    (Nat.zero_le _) (by omega)
  simpa [candAt] using this

/-! Filesystem operation lemmas. -/

theorem isFile_inj {fs : FS} (hwf : Wf fs) {p q : String} {i : Nat}
    (hp : isFile fs p = some i) (hq : isFile fs q = some i) : p = q := by
  have hmp := alookup_eq_some_mem hp
  have hmq := alookup_eq_some_mem hq
  have := List.inj_on_of_nodup_map hwf.2.1 hmp hmq rfl
  exact congrArg Prod.fst this

theorem samefile_self {fs : FS} {p : String} {i : Nat} (hp : isFile fs p = some i) :
    samefile fs p p = some true := by
  unfold samefile
  rw [hp]
  simp

theorem samefile_true_imp {fs : FS} (hwf : Wf fs) {p q : String} {i : Nat}
    (hp : isFile fs p = some i) (hq : samefile fs p q = some true) : q = p := by
  unfold samefile at hq
  rw [hp] at hq
  cases hqf : isFile fs q with
  | some j =>
    rw [hqf] at hq
    have hij : i = j := by simpa using hq
    exact isFile_inj hwf hqf (hij ▸ hp)
  | none =>
    rw [hqf] at hq
    by_cases hd : isDir fs q
    · simp [hd] at hq
    · simp [hd] at hq

theorem pathExists_of_isFile {fs : FS} {p : String} {i : Nat} (hp : isFile fs p = some i) :
    pathExists fs p = true := by
  simp [pathExists, hp]

theorem isFile_not_of_exists_false {fs : FS} {p : String} (h : pathExists fs p = false) :
    isFile fs p = none := by
  simp only [pathExists, Bool.or_eq_false_iff] at h
  cases hf : isFile fs p
  · rfl
  · rw [hf] at h
    simp at h

theorem isDir_false_of_exists_false {fs : FS} {p : String} (h : pathExists fs p = false) :
    p ∉ fs.dirs := by
  simp only [pathExists, Bool.or_eq_false_iff, isDir, decide_eq_false_iff_not] at h
  exact h.2

theorem addDir_files (fs : FS) (d : String) : (addDir fs d).files = fs.files := by
  unfold addDir
  by_cases h : d ∈ fs.dirs <;> simp [h]

theorem addDir_meta (fs : FS) (d : String) : (addDir fs d).meta = fs.meta := by
  unfold addDir
  by_cases h : d ∈ fs.dirs <;> simp [h]

theorem addDir_mkdirFail (fs : FS) (d : String) : (addDir fs d).mkdirFail = fs.mkdirFail := by
  unfold addDir
  by_cases h : d ∈ fs.dirs <;> simp [h]

theorem addDir_dirs_mem (fs : FS) (d x : String) :
    x ∈ (addDir fs d).dirs ↔ x ∈ fs.dirs ∨ x = d := by
  unfold addDir
  by_cases h : d ∈ fs.dirs
  · simp only [h, if_true]
    constructor
    · exact Or.inl
    · rintro (hx | rfl)
      · exact hx
      · exact h
  · simp only [h, if_false]
    constructor
    · intro hx
      rcases List.mem_cons.mp hx with hx | hx
      · exact Or.inr hx
      · exact Or.inl hx
    · rintro (hx | rfl)
      · exact List.mem_cons_of_mem _ hx
      · exact List.mem_cons_self ..

theorem makedirs3_none_eq {fs : FS} {dest yF mF dF : String}
    (hni : dF ∉ fs.dirs)
    (hf : dF ∈ fs.mkdirFail ∨ (isFile fs dest).isSome = true ∨ (isFile fs yF).isSome = true ∨
      (isFile fs mF).isSome = true ∨ (isFile fs dF).isSome = true) :
    makedirs3 fs dest yF mF dF = none := by
  unfold makedirs3
  rw [if_neg hni, if_pos hf]

theorem makedirs3_some {fs fs1 : FS} {dest yF mF dF : String}
    (h : makedirs3 fs dest yF mF dF = some fs1) :
    fs1.files = fs.files ∧ fs1.meta = fs.meta ∧ fs1.mkdirFail = fs.mkdirFail ∧
    dF ∈ fs1.dirs ∧ (∀ x ∈ fs.dirs, x ∈ fs1.dirs) ∧
    (∀ x ∈ fs1.dirs, x ∈ fs.dirs ∨ x = yF ∨ x = mF ∨ x = dF) ∧
    (dF ∈ fs.dirs → fs1 = fs) := by
  unfold makedirs3 at h
  by_cases hd : dF ∈ fs.dirs
  · rw [if_pos hd] at h
    obtain rfl := Option.some.inj h
    exact ⟨rfl, rfl, rfl, hd, fun x hx => hx, fun x hx => Or.inl hx, fun _ => rfl⟩
  · rw [if_neg hd] at h
    by_cases hf : dF ∈ fs.mkdirFail ∨ (isFile fs dest).isSome = true ∨
        (isFile fs yF).isSome = true ∨ (isFile fs mF).isSome = true ∨
        (isFile fs dF).isSome = true
    · rw [if_pos hf] at h
      cases h
    · rw [if_neg hf] at h
      obtain rfl := Option.some.inj h
      refine ⟨by simp [addDir_files], by simp [addDir_meta], by simp [addDir_mkdirFail],
        ?_, ?_, ?_, fun hdd => absurd hdd hd⟩
      · rw [addDir_dirs_mem]
        exact Or.inr rfl
      · intro x hx
        rw [addDir_dirs_mem, addDir_dirs_mem, addDir_dirs_mem]
        exact Or.inl (Or.inl (Or.inl hx))
      · intro x hx
        rw [addDir_dirs_mem, addDir_dirs_mem, addDir_dirs_mem] at hx
        rcases hx with ((hx | hx) | hx) | hx
        · exact Or.inl hx
        · exact Or.inr (Or.inl hx)
        · exact Or.inr (Or.inr (Or.inl hx))
        · exact Or.inr (Or.inr (Or.inr hx))

theorem makedirs3_not_file {fs fs1 : FS} {dest yF mF dF : String}
    (h : makedirs3 fs dest yF mF dF = some fs1) (hd : dF ∉ fs.dirs) :
    isFile fs yF = none ∧ isFile fs mF = none ∧ isFile fs dF = none := by
  unfold makedirs3 at h
  rw [if_neg hd] at h
  by_cases hf : dF ∈ fs.mkdirFail ∨ (isFile fs dest).isSome = true ∨
      (isFile fs yF).isSome = true ∨ (isFile fs mF).isSome = true ∨
      (isFile fs dF).isSome = true
  · rw [if_pos hf] at h
    cases h
  · push_neg at hf
    refine ⟨?_, ?_, ?_⟩
    · cases hy : isFile fs yF
      · rfl
      · exact absurd (by simp [hy]) hf.2.2.1
    · cases hy : isFile fs mF
      · rfl
      · exact absurd (by simp [hy]) hf.2.2.2.1
    · cases hy : isFile fs dF
      · rfl
      · exact absurd (by simp [hy]) hf.2.2.2.2

theorem makedirs3_wf {fs fs1 : FS} {dest yF mF dF : String} (hwf : Wf fs)
    (h : makedirs3 fs dest yF mF dF = some fs1) : Wf fs1 := by
  obtain ⟨hfiles, _, _, _, _, hsub, hold⟩ := makedirs3_some h
  by_cases hd : dF ∈ fs.dirs
  · rw [hold hd]; exact hwf
  · obtain ⟨hy, hm, hdf⟩ := makedirs3_not_file h hd
    refine ⟨by rw [hfiles]; exact hwf.1, by rw [hfiles]; exact hwf.2.1, ?_⟩
    intro pr hpr hmem
    rw [hfiles] at hpr
    rcases hsub _ hmem with hx | hx | hx | hx
    · exact hwf.2.2 pr hpr hx
    · exact alookup_eq_none_iff.mp hy (hx ▸ List.mem_map.mpr ⟨pr, hpr, rfl⟩)
    · exact alookup_eq_none_iff.mp hm (hx ▸ List.mem_map.mpr ⟨pr, hpr, rfl⟩)
    · exact alookup_eq_none_iff.mp hdf (hx ▸ List.mem_map.mpr ⟨pr, hpr, rfl⟩)

theorem aerase_no_key {l : List (String × Nat)} (nd : (l.map Prod.fst).Nodup)
    (src : String) (j : Nat) : (src, j) ∉ aerase l src := by
  intro hm
  have h1 : src ∈ (aerase l src).map Prod.fst := List.mem_map.mpr ⟨(src, j), hm, rfl⟩
  rw [← alookup_isSome_iff_mem, alookup_aerase_self nd] at h1
  cases h1

theorem moveFile_lookup {fs : FS} {src : String} (dst : String) {i : Nat}
    (nd : (fs.files.map Prod.fst).Nodup) (hsrc : isFile fs src = some i) :
    isFile (moveFile fs src dst) dst = some i ∧
    (src ≠ dst → isFile (moveFile fs src dst) src = none) ∧
    (∀ q, q ≠ src → q ≠ dst → isFile (moveFile fs src dst) q = isFile fs q) := by
  unfold moveFile
  rw [show alookup fs.files src = some i from hsrc]
  refine ⟨by simp [isFile, alookup], ?_, ?_⟩
  · intro hne
    show alookup ((dst, i) :: aerase fs.files src) src = none
    rw [alookup]
    rw [if_neg (Ne.symm hne)]
    exact alookup_aerase_self nd
  · intro q hq hqd
    show alookup ((dst, i) :: aerase fs.files src) q = alookup fs.files q
    rw [alookup, if_neg (Ne.symm hqd)]
    exact alookup_aerase_ne hq

theorem moveFile_dirs (fs : FS) (src dst : String) : (moveFile fs src dst).dirs = fs.dirs := by
  unfold moveFile
  cases alookup fs.files src <;> rfl

theorem moveFile_meta (fs : FS) (src dst : String) : (moveFile fs src dst).meta = fs.meta := by
  unfold moveFile
  cases alookup fs.files src <;> rfl

theorem moveFile_mkdirFail (fs : FS) (src dst : String) :
    (moveFile fs src dst).mkdirFail = fs.mkdirFail := by
  unfold moveFile
  cases alookup fs.files src <;> rfl

theorem moveFile_wf {fs : FS} (hwf : Wf fs) {src dst : String}
    (hfree : pathExists fs dst = false) : Wf (moveFile fs src dst) := by
  unfold moveFile
  cases hsrc : alookup fs.files src with
  | none => exact hwf
  | some i =>
    have hdstf : isFile fs dst = none := isFile_not_of_exists_false hfree
    have hdstd : dst ∉ fs.dirs := isDir_false_of_exists_false hfree
    refine ⟨?_, ?_, ?_⟩
    · simp only [List.map_cons, List.nodup_cons]
      constructor
      · intro hm
        obtain ⟨pr, hpr, hfst⟩ := List.mem_map.mp hm
        exact alookup_eq_none_iff.mp hdstf (List.mem_map.mpr
          ⟨pr, (aerase_sublist fs.files src).mem hpr, hfst⟩)
      · exact ((aerase_sublist fs.files src).map Prod.fst).nodup hwf.1
    · simp only [List.map_cons, List.nodup_cons]
      constructor
      · intro hm
        obtain ⟨pr, hpr, hsnd⟩ := List.mem_map.mp hm
        have hprl := (aerase_sublist fs.files src).mem hpr
        have hsrcmem := alookup_eq_some_mem hsrc
        have heq := List.inj_on_of_nodup_map hwf.2.1 hprl hsrcmem (by
          show pr.2 = (src, i).2
          exact hsnd)
        rw [heq] at hpr
        exact aerase_no_key hwf.1 src i hpr
      · exact ((aerase_sublist fs.files src).map Prod.snd).nodup hwf.2.1
    · intro pr hpr
      rcases List.mem_cons.mp hpr with h1 | h1
      · rw [h1]
        exact hdstd
      · exact hwf.2.2 pr ((aerase_sublist fs.files src).mem h1)

/-! Resolution of the sorter's collision loop. -/

theorem candAt_ne_of_basename (p dayF : String) (stem ext : List Char)
    (hcat : stem ++ ext = (basename p).data) (k : Nat) :
    candAt ⟨dayF.data ++ '/' :: stem⟩ ⟨ext⟩ (joinPath dayF (basename p)) (k + 1) ≠ p := by
  intro h
  have hb := congrArg basename h
  have hsl : '/' ∉ stem ++ '_' :: ((Nat.repr (k + 1)).data ++ ext) := by
    intro hm
    rcases List.mem_append.mp hm with hm | hm
    · exact absurd (hcat ▸ List.mem_append_left _ hm) (basename_no_slash p)
    · rcases List.mem_cons.mp hm with hm | hm
      · cases hm
      · rcases List.mem_append.mp hm with hm | hm
        · exact repr_no_slash _ hm
        · exact absurd (hcat ▸ List.mem_append_right _ hm) (basename_no_slash p)
  have hcand : candAt ⟨dayF.data ++ '/' :: stem⟩ ⟨ext⟩ (joinPath dayF (basename p)) (k + 1) =
      joinPath dayF ⟨stem ++ '_' :: ((Nat.repr (k + 1)).data ++ ext)⟩ := by
    apply String.ext
    rw [candAt_data_succ, joinPath_data]
    simp
  rw [hcand, basename_join hsl] at hb
  have hdata := congrArg String.data hb
  rw [← hcat] at hdata
  have h2 := congrArg List.length hdata
  simp at h2
  omega

/-- The collision loop of `sort_photos` under a well-formed filesystem:
either the source is already exactly at the initial destination name
(the `samefile` break), or the loop stops at the first free candidate
name, all earlier candidates being occupied. -/
theorem sortResolve_spec (fs1 : FS) (p dayF : String) {ip : Nat}
    (hwf : Wf fs1) (hp : isFile fs1 p = some ip)
    (stem ext : List Char) (hcat : stem ++ ext = (basename p).data) :
    (seekLoop (sortStop fs1 p) ⟨dayF.data ++ '/' :: stem⟩ ⟨ext⟩
        (joinPath dayF (basename p)) 1 (fuelOf fs1) = p ∧
      joinPath dayF (basename p) = p) ∨
    (∃ J, seekLoop (sortStop fs1 p) ⟨dayF.data ++ '/' :: stem⟩ ⟨ext⟩
        (joinPath dayF (basename p)) 1 (fuelOf fs1) =
          candAt ⟨dayF.data ++ '/' :: stem⟩ ⟨ext⟩ (joinPath dayF (basename p)) J ∧
      pathExists fs1 (candAt ⟨dayF.data ++ '/' :: stem⟩ ⟨ext⟩
        (joinPath dayF (basename p)) J) = false ∧
      (∀ j, j < J → pathExists fs1 (candAt ⟨dayF.data ++ '/' :: stem⟩ ⟨ext⟩
        (joinPath dayF (basename p)) j) = true) ∧
      (∀ j, j < J → candAt ⟨dayF.data ++ '/' :: stem⟩ ⟨ext⟩
        (joinPath dayF (basename p)) j ≠ p)) := by
  have hfree : ∀ q, pathExists fs1 q = false → sortStop fs1 p q = true := by
    intro q hq
    simp [sortStop, hq]
  have hinj : ∀ j k, candAt ⟨dayF.data ++ '/' :: stem⟩ ⟨ext⟩ (joinPath dayF (basename p)) j =
      candAt ⟨dayF.data ++ '/' :: stem⟩ ⟨ext⟩ (joinPath dayF (basename p)) k → j = k :=
    fun _ _ h => candAt_inj dayF (basename p) hcat h
  obtain ⟨J, hr, hstop, hmin⟩ := seekLoop_spec fs1 (sortStop fs1 p)
    ⟨dayF.data ++ '/' :: stem⟩ ⟨ext⟩ (joinPath dayF (basename p)) hfree hinj
  simp only [sortStop, Bool.or_eq_true, Bool.not_eq_true'] at hstop
  rcases hstop with hstop | hstop
  · right
    refine ⟨J, hr, hstop, ?_, ?_⟩
    · intro j hj
      have := hmin j hj
      simp only [sortStop, Bool.or_eq_false_iff, Bool.not_eq_false'] at this
      exact this.1
    · intro j hj heq
      have := hmin j hj
      simp only [sortStop, Bool.or_eq_false_iff, Bool.not_eq_false'] at this
      rw [heq] at this
      rw [samefile_self hp] at this
      simp at this
  · have hsf : samefile fs1 p (candAt ⟨dayF.data ++ '/' :: stem⟩ ⟨ext⟩
        (joinPath dayF (basename p)) J) = some true := by
      rwa [beq_iff_eq] at hstop
    have heqp := samefile_true_imp hwf hp hsf
    left
    match J, heqp with
    | 0, heqp => exact ⟨by rw [hr]; exact heqp, heqp⟩
    | J + 1, heqp => exact absurd heqp (candAt_ne_of_basename p dayF stem ext hcat J)

/-! The four outcomes of `sortStep`. -/

theorem sortStep_skip_noexist {dest : String} {st : SortState} {p : String}
    (h : pathExists st.fs p = false) :
    sortStep dest st p =
      { st with skipped := st.skipped + 1, newPaths := st.newPaths ++ [p] } := by
  unfold sortStep
  rw [if_pos h]

theorem sortStep_skip_nodate {dest : String} {st : SortState} {p : String}
    (h1 : pathExists st.fs p = true) (h2 : get_photo_date st.fs p = none) :
    sortStep dest st p =
      { st with skipped := st.skipped + 1, newPaths := st.newPaths ++ [p] } := by
  unfold sortStep
  rw [if_neg (by simp [h1])]
  simp only [h2]

theorem sortStep_skip_mkdir {dest : String} {st : SortState} {p : String} {d : DateTime}
    (h1 : pathExists st.fs p = true) (h2 : get_photo_date st.fs p = some d)
    (h3 : makedirs3 st.fs dest (yearDir dest d) (monthDir dest d) (dayDir dest d) = none) :
    sortStep dest st p =
      { st with skipped := st.skipped + 1, newPaths := st.newPaths ++ [p] } := by
  unfold sortStep
  rw [if_neg (by simp [h1])]
  simp only [h2, h3]

theorem sortStep_resolved {dest : String} {st : SortState} {p : String} {d : DateTime}
    {fs1 : FS}
    (h1 : pathExists st.fs p = true) (h2 : get_photo_date st.fs p = some d)
    (h3 : makedirs3 st.fs dest (yearDir dest d) (monthDir dest d) (dayDir dest d) = some fs1) :
    sortStep dest st p =
      (let dst0 := joinPath (dayDir dest d) (basename p)
       let be := splitext dst0
       let r := seekLoop (sortStop fs1 p) be.1 be.2 dst0 1 (fuelOf fs1)
       if p = r ∧ pathExists fs1 r = true then
         { st with fs := fs1, newPaths := st.newPaths ++ [p] }
       else
         { fs := moveFile fs1 p r, processed := st.processed + 1,
           skipped := st.skipped, newPaths := st.newPaths ++ [r] }) := by
  unfold sortStep
  rw [if_neg (by simp [h1])]
  simp only [h2, h3]

/-- C8: for every source file whose computed destination name is already
held by the same underlying file (same inode: filesystem identity, not
path-string equality), the sorter skips the move entirely — the file is
neither renamed with a suffix nor moved, the file table is unchanged and
the processed (moved) counter does not advance. -/
theorem c8_sort_skips_already_placed (dest : String) (st : SortState) (p : String)
    {i : Nat} {d : DateTime}
    (hwf : Wf st.fs) (hp : isFile st.fs p = some i)
    (hdate : get_photo_date st.fs p = some d)
    (hdst : isFile st.fs (joinPath (dayDir dest d) (basename p)) = some i) :
    (sortStep dest st p).fs.files = st.fs.files ∧
    (sortStep dest st p).processed = st.processed := by
  have hpe := pathExists_of_isFile hp
  cases hmk : makedirs3 st.fs dest (yearDir dest d) (monthDir dest d) (dayDir dest d) with
  | none =>
    rw [sortStep_skip_mkdir hpe hdate hmk]
    exact ⟨rfl, rfl⟩
  | some fs1 =>
    rw [sortStep_resolved hpe hdate hmk]
    obtain ⟨hfl, _, _, _, _, _, _⟩ := makedirs3_some hmk
    have hfile_eq : ∀ q, isFile fs1 q = isFile st.fs q := by
      intro q
      unfold isFile
      rw [hfl]
    have hwf1 : Wf fs1 := makedirs3_wf hwf hmk
    have hp1 : isFile fs1 p = some i := by rw [hfile_eq]; exact hp
    have hdst1 : isFile fs1 (joinPath (dayDir dest d) (basename p)) = some i := by
      rw [hfile_eq]
      exact hdst
    obtain ⟨stem, ext, hsp, hcat, _, _⟩ :=
      splitext_joinPath (dayDir dest d) (basename p) (basename_no_slash p)
    have hpd : joinPath (dayDir dest d) (basename p) = p := isFile_inj hwf1 hdst1 hp1
    simp only [hsp]
    rcases sortResolve_spec fs1 p (dayDir dest d) hwf1 hp1 stem ext hcat with
      ⟨hr, _⟩ | ⟨J, hr, hfree, _, hnep⟩
    · rw [hr, if_pos ⟨rfl, pathExists_of_isFile hp1⟩]
      exact ⟨hfl, rfl⟩
    · exfalso
      match J, hfree, hnep with
      | 0, hfree, _ =>
        rw [show candAt ⟨(dayDir dest d).data ++ '/' :: stem⟩ ⟨ext⟩
            (joinPath (dayDir dest d) (basename p)) 0 =
            joinPath (dayDir dest d) (basename p) from rfl, hpd,
          pathExists_of_isFile hp1] at hfree
        cases hfree
      | J + 1, _, hnep =>
        exact hnep 0 (Nat.succ_pos _) (by
          rw [show candAt ⟨(dayDir dest d).data ++ '/' :: stem⟩ ⟨ext⟩
            (joinPath (dayDir dest d) (basename p)) 0 =
            joinPath (dayDir dest d) (basename p) from rfl]
          exact hpd)

/-- C3: when the computed destination path already holds a different
underlying file, `sort_photos` moves the source to the suffixed name
`base_N.ext` for the smallest `N ≥ 1` making the name unused, and no
pre-existing file is overwritten or otherwise touched: every path other
than the source and the fresh suffixed name keeps its mapping, in
particular the occupant of the original destination. -/
theorem c3_sort_collision_no_overwrite (dest : String) (st : SortState) (p : String)
    {i j : Nat} {d : DateTime}
    (hwf : Wf st.fs) (hp : isFile st.fs p = some i)
    (hdate : get_photo_date st.fs p = some d)
    (hday : dayDir dest d ∈ st.fs.dirs)
    (hdst : isFile st.fs (joinPath (dayDir dest d) (basename p)) = some j)
    (hne : j ≠ i) :
    ∃ (stem ext : List Char) (N : Nat),
      splitext (joinPath (dayDir dest d) (basename p)) =
        (⟨(dayDir dest d).data ++ '/' :: stem⟩, ⟨ext⟩) ∧
      stem ++ ext = (basename p).data ∧
      1 ≤ N ∧
      (∀ m, 1 ≤ m → m < N → pathExists st.fs
        (candAt ⟨(dayDir dest d).data ++ '/' :: stem⟩ ⟨ext⟩
          (joinPath (dayDir dest d) (basename p)) m) = true) ∧
      pathExists st.fs (candAt ⟨(dayDir dest d).data ++ '/' :: stem⟩ ⟨ext⟩
        (joinPath (dayDir dest d) (basename p)) N) = false ∧
      (sortStep dest st p).processed = st.processed + 1 ∧
      isFile (sortStep dest st p).fs (candAt ⟨(dayDir dest d).data ++ '/' :: stem⟩ ⟨ext⟩
        (joinPath (dayDir dest d) (basename p)) N) = some i ∧
      isFile (sortStep dest st p).fs p = none ∧
      isFile (sortStep dest st p).fs (joinPath (dayDir dest d) (basename p)) = some j ∧
      (∀ q, q ≠ p → q ≠ candAt ⟨(dayDir dest d).data ++ '/' :: stem⟩ ⟨ext⟩
          (joinPath (dayDir dest d) (basename p)) N →
        isFile (sortStep dest st p).fs q = isFile st.fs q) := by
  have hpe := pathExists_of_isFile hp
  have hmk : makedirs3 st.fs dest (yearDir dest d) (monthDir dest d) (dayDir dest d) =
      some st.fs := by
    unfold makedirs3
    rw [if_pos hday]
  rw [sortStep_resolved hpe hdate hmk]
  obtain ⟨stem, ext, hsp, hcat, _, _⟩ :=
    splitext_joinPath (dayDir dest d) (basename p) (basename_no_slash p)
  simp only [hsp]
  have hdstne : joinPath (dayDir dest d) (basename p) ≠ p := by
    intro heq
    rw [heq, hp] at hdst
    exact hne (Option.some.inj hdst).symm
  rcases sortResolve_spec st.fs p (dayDir dest d) hwf hp stem ext hcat with
    ⟨_, hr0⟩ | ⟨J, hr, hfree, hocc, _⟩
  · exact absurd hr0 hdstne
  · have hJpos : 1 ≤ J := by
      rcases Nat.eq_zero_or_pos J with rfl | hpos
      · rw [show candAt ⟨(dayDir dest d).data ++ '/' :: stem⟩ ⟨ext⟩
            (joinPath (dayDir dest d) (basename p)) 0 =
            joinPath (dayDir dest d) (basename p) from rfl] at hfree
        rw [pathExists_of_isFile hdst] at hfree
        cases hfree
      · exact hpos
    have hrnep : candAt ⟨(dayDir dest d).data ++ '/' :: stem⟩ ⟨ext⟩
        (joinPath (dayDir dest d) (basename p)) J ≠ p := by
      intro heq
      rw [heq, hpe] at hfree
      cases hfree
    rw [hr, if_neg (by
      rintro ⟨hcp, hce⟩
      rw [← hcp, hpe] at hfree
      cases hfree)]
    obtain ⟨hdstl, hsrcl, hframe⟩ := moveFile_lookup
      (candAt ⟨(dayDir dest d).data ++ '/' :: stem⟩ ⟨ext⟩
        (joinPath (dayDir dest d) (basename p)) J) hwf.1 hp
    refine ⟨stem, ext, J, rfl, hcat, hJpos, fun m _ hm => hocc m hm, hfree, rfl,
      hdstl, hsrcl (Ne.symm hrnep), ?_, hframe⟩
    rw [hframe _ hdstne (by
      intro heq
      rw [heq] at hdst
      rw [isFile_not_of_exists_false hfree] at hdst
      cases hdst)]
    exact hdst

/-- Witness for C8 at a concrete correctly-placed file. -/
theorem c8_witness :
    (sortStep "/root" ⟨fsPlaced, 0, 0, []⟩ "/root/2020/05/17/a.jpg").fs.files =
        fsPlaced.files ∧
    (sortStep "/root" ⟨fsPlaced, 0, 0, []⟩ "/root/2020/05/17/a.jpg").processed = 0 :=
  c8_sort_skips_already_placed "/root" ⟨fsPlaced, 0, 0, []⟩ "/root/2020/05/17/a.jpg"
    (i := 0) (d := exifDT) (by decide) (by decide) (by decide) (by decide)

/-- Witness for C3 at a concrete collision. -/
theorem c3_witness :
    ∃ (stem ext : List Char) (N : Nat),
      splitext (joinPath (dayDir "/root" exifDT) (basename "/src/a.jpg")) =
        (⟨(dayDir "/root" exifDT).data ++ '/' :: stem⟩, ⟨ext⟩) ∧
      stem ++ ext = (basename "/src/a.jpg").data ∧
      1 ≤ N ∧
      (∀ m, 1 ≤ m → m < N → pathExists fsCollide
        (candAt ⟨(dayDir "/root" exifDT).data ++ '/' :: stem⟩ ⟨ext⟩
          (joinPath (dayDir "/root" exifDT) (basename "/src/a.jpg")) m) = true) ∧
      pathExists fsCollide (candAt ⟨(dayDir "/root" exifDT).data ++ '/' :: stem⟩ ⟨ext⟩
        (joinPath (dayDir "/root" exifDT) (basename "/src/a.jpg")) N) = false ∧
      (sortStep "/root" ⟨fsCollide, 0, 0, []⟩ "/src/a.jpg").processed = 0 + 1 ∧
      isFile (sortStep "/root" ⟨fsCollide, 0, 0, []⟩ "/src/a.jpg").fs
        (candAt ⟨(dayDir "/root" exifDT).data ++ '/' :: stem⟩ ⟨ext⟩
          (joinPath (dayDir "/root" exifDT) (basename "/src/a.jpg")) N) = some 0 ∧
      isFile (sortStep "/root" ⟨fsCollide, 0, 0, []⟩ "/src/a.jpg").fs "/src/a.jpg" = none ∧
      isFile (sortStep "/root" ⟨fsCollide, 0, 0, []⟩ "/src/a.jpg").fs
        (joinPath (dayDir "/root" exifDT) (basename "/src/a.jpg")) = some 1 ∧
      (∀ q, q ≠ "/src/a.jpg" → q ≠ candAt ⟨(dayDir "/root" exifDT).data ++ '/' :: stem⟩ ⟨ext⟩
          (joinPath (dayDir "/root" exifDT) (basename "/src/a.jpg")) N →
        isFile (sortStep "/root" ⟨fsCollide, 0, 0, []⟩ "/src/a.jpg").fs q =
          isFile fsCollide q) :=
  c3_sort_collision_no_overwrite "/root" ⟨fsCollide, 0, 0, []⟩ "/src/a.jpg"
    (i := 0) (j := 1) (d := exifDT) (by decide) (by decide) (by decide) (by decide)
    (by decide) (by decide)

theorem candAt_succ_join (dayF bn : String) (stem ext : List Char) (k : Nat) :
    candAt ⟨dayF.data ++ '/' :: stem⟩ ⟨ext⟩ (joinPath dayF bn) (k + 1) =
      joinPath dayF ⟨stem ++ '_' :: ((Nat.repr (k + 1)).data ++ ext)⟩ := by
  apply String.ext
  rw [candAt_data_succ, joinPath_data]
  simp

/-- C4 (amended): sorting is date-deterministic. The destination
directory computed from a resolved date `d` is exactly
`dest/str(d.year)/MM/DD` — the year is rendered by `str()` without
padding, so it has four digits exactly when `1000 ≤ year ≤ 9999` —
a file with EXIF DateTimeOriginal `2020:05:17 10:00:00` resolves to date
2020-05-17 (hence directory `dest/2020/05/17`), and the sorted file ends
up directly inside that date directory. -/
theorem c4_sort_date_deterministic (dest : String) (st : SortState) (p : String)
    {i : Nat} {d : DateTime} {fs1 : FS}
    (hwf : Wf st.fs) (hp : isFile st.fs p = some i)
    (hdate : get_photo_date st.fs p = some d)
    (hmk : makedirs3 st.fs dest (yearDir dest d) (monthDir dest d) (dayDir dest d) = some fs1) :
    dayDir dest d =
      dest ++ "/" ++ Nat.repr d.year ++ "/" ++ pad2 d.month ++ "/" ++ pad2 d.day ∧
    (∀ (fs : FS) (q : String) (k : Nat), isFile fs q = some k →
      (fs.meta k).exifOk = true →
      tagLookup (fs.meta k).tags "DateTimeOriginal" = some "2020:05:17 10:00:00" →
      get_photo_date fs q = some exifDT) ∧
    (∃ bn2 : List Char, '/' ∉ bn2 ∧
      isFile (sortStep dest st p).fs (joinPath (dayDir dest d) ⟨bn2⟩) = some i) := by
  refine ⟨rfl, ?_, ?_⟩
  · intro fs q k hq hok htag
    have hparse : parseExifDatetime "2020:05:17 10:00:00" = some exifDT := by decide
    simp [get_photo_date, hq, hok, htag, pyOr, hparse]
  · have hpe := pathExists_of_isFile hp
    rw [sortStep_resolved hpe hdate hmk]
    obtain ⟨hfl, _, _, _, _, _, _⟩ := makedirs3_some hmk
    have hfile_eq : ∀ q, isFile fs1 q = isFile st.fs q := by
      intro q
      unfold isFile
      rw [hfl]
    have hwf1 : Wf fs1 := makedirs3_wf hwf hmk
    have hp1 : isFile fs1 p = some i := by rw [hfile_eq]; exact hp
    obtain ⟨stem, ext, hsp, hcat, hstem, hext⟩ :=
      splitext_joinPath (dayDir dest d) (basename p) (basename_no_slash p)
    simp only [hsp]
    rcases sortResolve_spec fs1 p (dayDir dest d) hwf1 hp1 stem ext hcat with
      ⟨hr, hr0⟩ | ⟨J, hr, hfree, hocc, hnep⟩
    · rw [hr, if_pos ⟨rfl, pathExists_of_isFile hp1⟩]
      refine ⟨(basename p).data, basename_no_slash p, ?_⟩
      show isFile fs1 (joinPath (dayDir dest d) (basename p)) = some i
      rw [hr0]
      exact hp1
    · have hrne : ¬(p = candAt ⟨(dayDir dest d).data ++ '/' :: stem⟩ ⟨ext⟩
          (joinPath (dayDir dest d) (basename p)) J ∧
          pathExists fs1 (candAt ⟨(dayDir dest d).data ++ '/' :: stem⟩ ⟨ext⟩
            (joinPath (dayDir dest d) (basename p)) J) = true) := by
        rintro ⟨hcp, hce⟩
        rw [← hcp, pathExists_of_isFile hp1] at hfree
        cases hfree
      rw [hr, if_neg hrne]
      obtain ⟨hdstl, _, _⟩ := moveFile_lookup (candAt ⟨(dayDir dest d).data ++ '/' :: stem⟩
        ⟨ext⟩ (joinPath (dayDir dest d) (basename p)) J) hwf1.1 hp1
      cases J with
      | zero =>
        refine ⟨(basename p).data, basename_no_slash p, ?_⟩
        show isFile (moveFile fs1 p (joinPath (dayDir dest d) (basename p)))
          (joinPath (dayDir dest d) (basename p)) = some i
        exact hdstl
      | succ k =>
        refine ⟨stem ++ '_' :: ((Nat.repr (k + 1)).data ++ ext), ?_, ?_⟩
        · intro hc
          rcases List.mem_append.mp hc with hc | hc
          · exact hstem hc
          · rcases List.mem_cons.mp hc with hc | hc
            · cases hc
            · rcases List.mem_append.mp hc with hc | hc
              · exact repr_no_slash _ hc
              · exact hext hc
        · rw [← candAt_succ_join (dayDir dest d) (basename p) stem ext k]
          exact hdstl

/-- Counterexample to C4 as stated: a determinate EXIF year below 1000 is
rendered by `str()` without zero-padding, so the destination directory is
`/root/999/05/17`, not the four-digit-year form `/root/0999/05/17`. -/
theorem c4_counterexample :
    isFile (sort_photos fs999 ["/pics/a.jpg"] "/root").fs "/root/999/05/17/a.jpg" = some 0 ∧
    isFile (sort_photos fs999 ["/pics/a.jpg"] "/root").fs "/root/0999/05/17/a.jpg" = none ∧
    (Nat.repr 999).length ≠ 4 := by
  decide

/-- Witness for C4 at a concrete file. -/
theorem c4_witness :
    dayDir "/root" exifDT =
      "/root" ++ "/" ++ Nat.repr exifDT.year ++ "/" ++ pad2 exifDT.month ++ "/" ++
        pad2 exifDT.day ∧
    (∀ (fs : FS) (q : String) (k : Nat), isFile fs q = some k →
      (fs.meta k).exifOk = true →
      tagLookup (fs.meta k).tags "DateTimeOriginal" = some "2020:05:17 10:00:00" →
      get_photo_date fs q = some exifDT) ∧
    (∃ bn2 : List Char, '/' ∉ bn2 ∧
      isFile (sortStep "/root" ⟨fsPlaced, 0, 0, []⟩ "/root/2020/05/17/a.jpg").fs
        (joinPath (dayDir "/root" exifDT) ⟨bn2⟩) = some 0) :=
  c4_sort_date_deterministic "/root" ⟨fsPlaced, 0, 0, []⟩ "/root/2020/05/17/a.jpg"
    (i := 0) (d := exifDT) (by decide) (by decide) (by decide) rfl

/-- C5 (amended): `get_photo_date` prefers DateTimeOriginal; it consults
DateTimeDigitized when DateTimeOriginal is absent OR EMPTY (Python `or`
treats the empty string as falsy — this is the one divergence from the
claim as stated); the winning value is parsed with the fixed format
YYYY:MM:DD HH:MM:SS; on unreadable metadata or an unparsable value it
falls back to the filesystem modification time; and it returns NONE only
when no EXIF date was determined and even the modification time cannot be
read (missing file, unreadable mtime, or out-of-range timestamp). -/
theorem c5_date_resolution_order (fs : FS) (p : String) :
    (∀ i s d, isFile fs p = some i → (fs.meta i).exifOk = true →
      tagLookup (fs.meta i).tags "DateTimeOriginal" = some s → s ≠ "" →
      parseExifDatetime s = some d → get_photo_date fs p = some d) ∧
    (∀ i s d, isFile fs p = some i → (fs.meta i).exifOk = true →
      (tagLookup (fs.meta i).tags "DateTimeOriginal" = none ∨
        tagLookup (fs.meta i).tags "DateTimeOriginal" = some "") →
      tagLookup (fs.meta i).tags "DateTimeDigitized" = some s → s ≠ "" →
      parseExifDatetime s = some d → get_photo_date fs p = some d) ∧
    (∀ i, isFile fs p = some i → (fs.meta i).exifOk = false →
      get_photo_date fs p =
        (if (fs.meta i).mtimeOk then fromtimestampOpt (fs.meta i).mtime else none)) ∧
    (∀ i s, isFile fs p = some i → (fs.meta i).exifOk = true →
      pyOr (tagLookup (fs.meta i).tags "DateTimeOriginal")
        (tagLookup (fs.meta i).tags "DateTimeDigitized") = some s →
      parseExifDatetime s = none →
      get_photo_date fs p =
        (if (fs.meta i).mtimeOk then fromtimestampOpt (fs.meta i).mtime else none)) ∧
    (get_photo_date fs p = none →
      isFile fs p = none ∨ ∃ i, isFile fs p = some i ∧
        ((fs.meta i).mtimeOk = false ∨ fromtimestampOpt (fs.meta i).mtime = none)) := by
  refine ⟨?_, ?_, ?_, ?_, ?_⟩
  · intro i s d hi hok ht hne hp2
    simp [get_photo_date, hi, hok, ht, pyOr, hne, hp2]
  · intro i s d hi hok ht1 ht2 hne hp2
    rcases ht1 with ht1 | ht1 <;>
      simp [get_photo_date, hi, hok, ht1, ht2, pyOr, hne, hp2]
  · intro i hi hok
    by_cases hm : (fs.meta i).mtimeOk <;>
      simp [get_photo_date, hi, hok, hm]
  · intro i s hi hok hor hp2
    by_cases hs : s = ""
    · subst hs
      by_cases hm : (fs.meta i).mtimeOk <;>
        simp [get_photo_date, hi, hok, hor, hm]
    · by_cases hm : (fs.meta i).mtimeOk <;>
        simp [get_photo_date, hi, hok, hor, hs, hp2, hm]
  · intro hnone
    cases hi : isFile fs p with
    | none => exact Or.inl rfl
    | some i =>
      refine Or.inr ⟨i, rfl, ?_⟩
      by_cases hm : (fs.meta i).mtimeOk
      · right
        by_cases hok : (fs.meta i).exifOk
        · cases hor : pyOr (tagLookup (fs.meta i).tags "DateTimeOriginal")
              (tagLookup (fs.meta i).tags "DateTimeDigitized") with
          | none => simpa [get_photo_date, hi, hok, hor, hm] using hnone
          | some s =>
            by_cases hs : s = ""
            · subst hs
              simpa [get_photo_date, hi, hok, hor, hm] using hnone
            · cases hp2 : parseExifDatetime s with
              | some d => simp [get_photo_date, hi, hok, hor, hs, hp2] at hnone
              | none => simpa [get_photo_date, hi, hok, hor, hs, hp2, hm] using hnone
        · simpa [get_photo_date, hi, hok, hm] using hnone
      · exact Or.inl (by simpa using hm)

/-- Counterexample to C5 as stated: with DateTimeOriginal present but
EMPTY and a parseable DateTimeDigitized, the code returns the digitized
date (Python `or` skips the falsy empty string), whereas the claim's
resolution order (digitized only when the original tag is absent; an
unparsable original falls back to the modification time) yields the
mtime date 1970-01-01. -/
theorem c5_counterexample :
    get_photo_date fsEmptyTag "/p/e.jpg" = some exifDT ∧
    get_photo_date_claimC5 fsEmptyTag "/p/e.jpg" = some ⟨1970, 1, 1, 0, 0, 0⟩ ∧
    get_photo_date fsEmptyTag "/p/e.jpg" ≠ get_photo_date_claimC5 fsEmptyTag "/p/e.jpg" := by
  decide

/-- Witness for C5 at a concrete file with a valid DateTimeOriginal. -/
theorem c5_witness : get_photo_date fsPlaced "/root/2020/05/17/a.jpg" = some exifDT :=
  (c5_date_resolution_order fsPlaced "/root/2020/05/17/a.jpg").1 0
    "2020:05:17 10:00:00" exifDT rfl rfl rfl (by decide) (by decide)

/-! Lemmas about `handle_duplicates`. -/

theorem mem_of_head_eq {r : String} : ∀ {l : List String}, l.head? = some r → r ∈ l := by
  intro l h
  cases l with
  | nil => cases h
  | cons a t =>
    rw [List.head?_cons] at h
    rw [← Option.some.inj h]
    exact List.mem_cons_self ..

theorem mem_of_mem_tail {r : String} : ∀ {l : List String}, r ∈ l.tail → r ∈ l := by
  intro l h
  cases l with
  | nil => cases h
  | cons a t => exact List.mem_cons_of_mem _ h

theorem processGroup_inert (action target : String)
    (h2 : action ≠ "move") (h3 : action ≠ "delete")
    (st : DupState) (g : String × List String) :
    (processGroup action target st g).fs = st.fs ∧
    (processGroup action target st g).moved = st.moved ∧
    (processGroup action target st g).deleted = st.deleted := by
  unfold processGroup
  by_cases hc : st.crashed
  · simp [hc]
  · simp only [Bool.not_eq_true] at hc
    cases hg : g.2 with
    | nil => simp [hc]
    | cons a rest =>
      by_cases hr : rest = []
      · simp [hc, hr]
      · by_cases hl : action = "list"
        · simp [hc, hr, hl]
        · simp [hc, hr, hl, h2, h3]

theorem foldl_processGroup_inert (action target : String)
    (h2 : action ≠ "move") (h3 : action ≠ "delete") :
    ∀ (groups : List (String × List String)) (st : DupState),
    (groups.foldl (processGroup action target) st).fs = st.fs ∧
    (groups.foldl (processGroup action target) st).moved = st.moved ∧
    (groups.foldl (processGroup action target) st).deleted = st.deleted := by
  intro groups
  induction groups with
  | nil => intro st; exact ⟨rfl, rfl, rfl⟩
  | cons g rest ih =>
    intro st
    simp only [List.foldl_cons]
    obtain ⟨e1, e2, e3⟩ := processGroup_inert action target h2 h3 st g
    obtain ⟨f1, f2, f3⟩ := ih (processGroup action target st g)
    exact ⟨f1.trans e1, f2.trans e2, f3.trans e3⟩

/-- C10: for every action string other than "list", "move" and "delete",
`handle_duplicates` performs no filesystem mutation: the file table, the
directory set and the failure set are unchanged (no file moved or
deleted, no directory created) and the reported moved and deleted counts
are zero. -/
theorem c10_handle_duplicates_unrecognized (fs : FS) (groups : List (String × List String))
    (action target : String) (responses : List String)
    (h1 : action ≠ "list") (h2 : action ≠ "move") (h3 : action ≠ "delete") :
    (handle_duplicates fs groups action target responses).fs = fs ∧
    (handle_duplicates fs groups action target responses).moved = 0 ∧
    (handle_duplicates fs groups action target responses).deleted = 0 := by
  unfold handle_duplicates
  by_cases hg : groups = []
  · simp [hg]
  · rw [if_neg hg]
    have hstart : (if action = "move" ∧ pathExists fs target = false then
        if target ∈ fs.mkdirFail then (fs, "list") else (addDir fs target, "move")
      else (fs, action)) = ((fs, action) : FS × String) := by
      rw [if_neg (by rintro ⟨hm, _⟩; exact h2 hm)]
    simp only [hstart]
    exact foldl_processGroup_inert action target h2 h3 groups ⟨fs, responses, 0, 0, false⟩

/-- Witness for C10 at a concrete unrecognized action. -/
theorem c10_witness :
    (handle_duplicates fsDup [("h", ["/p/a.jpg", "/p/b.jpg"])] "purge" "/dup" []).fs = fsDup ∧
    (handle_duplicates fsDup [("h", ["/p/a.jpg", "/p/b.jpg"])] "purge" "/dup" []).moved = 0 ∧
    (handle_duplicates fsDup [("h", ["/p/a.jpg", "/p/b.jpg"])] "purge" "/dup" []).deleted = 0 :=
  c10_handle_duplicates_unrecognized fsDup [("h", ["/p/a.jpg", "/p/b.jpg"])] "purge" "/dup" []
    (by decide) (by decide) (by decide)

theorem processGroup_delete_nogate (target : String) (st : DupState) (g : String × List String)
    (hneg : ∀ r, st.responses.head? = some r → strToLower r ≠ "o") :
    (processGroup "delete" target st g).fs = st.fs ∧
    (processGroup "delete" target st g).deleted = st.deleted ∧
    ((processGroup "delete" target st g).responses = st.responses ∨
      (processGroup "delete" target st g).responses = st.responses.tail) := by
  unfold processGroup
  by_cases hc : st.crashed
  · simp [hc]
  · simp only [Bool.not_eq_true] at hc
    cases hg : g.2 with
    | nil => simp [hc]
    | cons a rest =>
      by_cases hr : rest = []
      · simp [hc, hr]
      · cases hresp : st.responses with
        | nil => simp [hc, hr, hresp]
        | cons r rs =>
          have hro : ¬ strToLower r = "o" := hneg r (by rw [hresp]; rfl)
          simp [hc, hr, hresp, hro]

theorem foldl_processGroup_delete (target : String) :
    ∀ (groups : List (String × List String)) (st : DupState),
    (∀ r ∈ st.responses, strToLower r ≠ "o") →
    (groups.foldl (processGroup "delete" target) st).fs = st.fs ∧
    (groups.foldl (processGroup "delete" target) st).deleted = st.deleted := by
  intro groups
  induction groups with
  | nil => intro st _; exact ⟨rfl, rfl⟩
  | cons g rest ih =>
    intro st hneg
    simp only [List.foldl_cons]
    obtain ⟨e1, e2, e3⟩ := processGroup_delete_nogate target st g
      (fun r hr => hneg r (mem_of_head_eq hr))
    have hneg2 : ∀ r ∈ (processGroup "delete" target st g).responses,
        strToLower r ≠ "o" := by
      rcases e3 with e3 | e3 <;> rw [e3] <;> intro r hr
      · exact hneg r hr
      · exact hneg r (mem_of_mem_tail hr)
    obtain ⟨f1, f2⟩ := ih _ hneg2
    exact ⟨f1.trans e1, f2.trans e2⟩

/-- C6: under the delete policy the per-group confirmation gates every
removal: a group whose confirmation answer is not the affirmative "o"
(including the case where no answer is available, which aborts before any
removal) leaves the filesystem and the deletion counter untouched, and a
whole run in which no response is affirmative removes nothing and reports
zero deletions. -/
theorem c6_delete_requires_confirmation (fs : FS) (groups : List (String × List String))
    (target : String) (responses : List String) :
    (∀ (st : DupState) (g : String × List String),
      (∀ r, st.responses.head? = some r → strToLower r ≠ "o") →
      (processGroup "delete" target st g).fs = st.fs ∧
      (processGroup "delete" target st g).deleted = st.deleted) ∧
    ((∀ r ∈ responses, strToLower r ≠ "o") →
      (handle_duplicates fs groups "delete" target responses).fs = fs ∧
      (handle_duplicates fs groups "delete" target responses).deleted = 0) := by
  constructor
  · intro st g hneg
    obtain ⟨e1, e2, _⟩ := processGroup_delete_nogate target st g hneg
    exact ⟨e1, e2⟩
  · intro hneg
    unfold handle_duplicates
    by_cases hg : groups = []
    · simp [hg]
    · rw [if_neg hg]
      have hstart : (if "delete" = "move" ∧ pathExists fs target = false then
          if target ∈ fs.mkdirFail then (fs, "list") else (addDir fs target, "move")
        else (fs, "delete")) = ((fs, "delete") : FS × String) := by
        rw [if_neg (by rintro ⟨hm, _⟩; exact absurd hm (by decide))]
      simp only [hstart]
      exact foldl_processGroup_delete target groups ⟨fs, responses, 0, 0, false⟩ hneg

/-- Witness for C6 at a concrete group with a negative answer. -/
theorem c6_witness :
    (handle_duplicates fsDup [("h", ["/p/a.jpg", "/p/b.jpg"])] "delete" "/dup" ["n"]).fs =
      fsDup ∧
    (handle_duplicates fsDup [("h", ["/p/a.jpg", "/p/b.jpg"])] "delete" "/dup" ["n"]).deleted =
      0 :=
  (c6_delete_requires_confirmation fsDup [("h", ["/p/a.jpg", "/p/b.jpg"])] "/dup" ["n"]).2
    (by decide)

theorem moveFile_frame {fs : FS} {src dst q : String} (hq1 : q ≠ src) (hq2 : q ≠ dst) :
    isFile (moveFile fs src dst) q = isFile fs q := by
  unfold moveFile
  cases hsrc : alookup fs.files src with
  | none => rfl
  | some i =>
    show alookup ((dst, i) :: aerase fs.files src) q = alookup fs.files q
    rw [alookup, if_neg (Ne.symm hq2)]
    exact alookup_aerase_ne hq1

/-- The per-candidate behaviour of the relocate loop: a present candidate
is moved to `target/basename`, suffixed with the first counter value that
makes the name free, and the moved counter advances by one. -/
theorem moveCandidate_spec (target : String) (fs0 : FS) (n : Nat) (c : String) {i : Nat}
    (hwf : Wf fs0) (hc : isFile fs0 c = some i) :
    ∃ (stem ext : List Char) (J : Nat),
      splitext (joinPath target (basename c)) = (⟨target.data ++ '/' :: stem⟩, ⟨ext⟩) ∧
      stem ++ ext = (basename c).data ∧
      pathExists fs0 (candAt ⟨target.data ++ '/' :: stem⟩ ⟨ext⟩
        (joinPath target (basename c)) J) = false ∧
      (∀ j, j < J → pathExists fs0 (candAt ⟨target.data ++ '/' :: stem⟩ ⟨ext⟩
        (joinPath target (basename c)) j) = true) ∧
      moveCandidate target (fs0, n) c =
        (moveFile fs0 c (candAt ⟨target.data ++ '/' :: stem⟩ ⟨ext⟩
          (joinPath target (basename c)) J), n + 1) ∧
      isFile (moveCandidate target (fs0, n) c).1 (candAt ⟨target.data ++ '/' :: stem⟩ ⟨ext⟩
        (joinPath target (basename c)) J) = some i ∧
      isFile (moveCandidate target (fs0, n) c).1 c = none := by
  obtain ⟨stem, ext, hsp, hcat, hstem, hext⟩ :=
    splitext_joinPath target (basename c) (basename_no_slash c)
  have hinj : ∀ j k, candAt ⟨target.data ++ '/' :: stem⟩ ⟨ext⟩
      (joinPath target (basename c)) j =
      candAt ⟨target.data ++ '/' :: stem⟩ ⟨ext⟩ (joinPath target (basename c)) k → j = k :=
    fun _ _ h => candAt_inj target (basename c) hcat h
  have hfree : ∀ q, pathExists fs0 q = false → (!(pathExists fs0 q)) = true := by
    intro q hq
    rw [hq]
    rfl
  obtain ⟨J, hr, hstop, hmin⟩ := seekLoop_spec fs0 (fun q => !(pathExists fs0 q))
    ⟨target.data ++ '/' :: stem⟩ ⟨ext⟩ (joinPath target (basename c)) hfree hinj
  have hJfree : pathExists fs0 (candAt ⟨target.data ++ '/' :: stem⟩ ⟨ext⟩
      (joinPath target (basename c)) J) = false := by
    simpa using hstop
  have hJocc : ∀ j, j < J → pathExists fs0 (candAt ⟨target.data ++ '/' :: stem⟩ ⟨ext⟩
      (joinPath target (basename c)) j) = true := by
    intro j hj
    have := hmin j hj
    simpa using this
  have hcne : c ≠ candAt ⟨target.data ++ '/' :: stem⟩ ⟨ext⟩
      (joinPath target (basename c)) J := by
    intro heq
    rw [← heq, pathExists_of_isFile hc] at hJfree
    cases hJfree
  have hstep : moveCandidate target (fs0, n) c =
      (moveFile fs0 c (candAt ⟨target.data ++ '/' :: stem⟩ ⟨ext⟩
        (joinPath target (basename c)) J), n + 1) := by
    unfold moveCandidate
    rw [if_neg (by rw [pathExists_of_isFile hc]; simp)]
    simp only [hsp]
    rw [hr]
  obtain ⟨hdstl, hsrcl, _⟩ := moveFile_lookup (candAt ⟨target.data ++ '/' :: stem⟩ ⟨ext⟩
    (joinPath target (basename c)) J) hwf.1 hc
  refine ⟨stem, ext, J, hsp, hcat, hJfree, hJocc, hstep, ?_, ?_⟩
  · rw [hstep]
    exact hdstl
  · rw [hstep]
    exact hsrcl hcne

theorem moveCandidate_frame (target : String) (acc : FS × Nat) (c orig : String) {i : Nat}
    (hwf : Wf acc.1) (hne : orig ≠ c) (ho : isFile acc.1 orig = some i) :
    isFile (moveCandidate target acc c).1 orig = some i := by
  by_cases hce : pathExists acc.1 c = false
  · unfold moveCandidate
    rw [if_pos hce]
    exact ho
  · cases hcf : isFile acc.1 c with
    | none =>
      unfold moveCandidate
      rw [if_neg hce]
      show isFile (moveFile acc.1 c _) orig = some i
      unfold moveFile
      rw [show alookup acc.1.files c = none from hcf]
      exact ho
    | some j =>
      obtain ⟨stem, ext, J, _, _, hJfree, _, hstep, _, _⟩ :=
        moveCandidate_spec target acc.1 acc.2 c hwf hcf
      have hacc : moveCandidate target (acc.1, acc.2) c = moveCandidate target acc c := rfl
      rw [← hacc, hstep]
      show isFile (moveFile acc.1 c _) orig = some i
      rw [moveFile_frame hne ?_]
      · exact ho
      · intro heq
        rw [← heq, pathExists_of_isFile ho] at hJfree
        cases hJfree

theorem moveCandidate_wf (target : String) (acc : FS × Nat) (c : String)
    (hwf : Wf acc.1) : Wf (moveCandidate target acc c).1 := by
  by_cases hce : pathExists acc.1 c = false
  · unfold moveCandidate
    rw [if_pos hce]
    exact hwf
  · cases hcf : isFile acc.1 c with
    | none =>
      unfold moveCandidate
      rw [if_neg hce]
      show Wf (moveFile acc.1 c _)
      unfold moveFile
      rw [show alookup acc.1.files c = none from hcf]
      exact hwf
    | some i =>
      obtain ⟨stem, ext, J, _, _, hJfree, _, hstep, _, _⟩ :=
        moveCandidate_spec target acc.1 acc.2 c hwf hcf
      have hacc : moveCandidate target (acc.1, acc.2) c = moveCandidate target acc c := rfl
      rw [← hacc, hstep]
      exact moveFile_wf hwf hJfree

theorem foldl_moveCandidate_orig (target : String) :
    ∀ (rest : List String) (acc : FS × Nat) (orig : String) {i : Nat},
    Wf acc.1 → orig ∉ rest → isFile acc.1 orig = some i →
    isFile (rest.foldl (moveCandidate target) acc).1 orig = some i := by
  intro rest
  induction rest with
  | nil => intro acc orig i _ _ ho; exact ho
  | cons c t ih =>
    intro acc orig i hwf hno ho
    simp only [List.foldl_cons]
    have hne : orig ≠ c := fun h => hno (h ▸ List.mem_cons_self ..)
    have hnt : orig ∉ t := fun h => hno (List.mem_cons_of_mem _ h)
    exact ih (moveCandidate target acc c) orig
      (moveCandidate_wf target acc c hwf) hnt
      (moveCandidate_frame target acc c orig hwf hne ho)

theorem processGroup_move_eq (target : String) (st : DupState)
    (hd orig : String) (rest : List String)
    (hcr : st.crashed = false) (hr : rest ≠ []) :
    processGroup "move" target st (hd, orig :: rest) =
      { st with fs := (rest.foldl (moveCandidate target) (st.fs, st.moved)).1,
                moved := (rest.foldl (moveCandidate target) (st.fs, st.moved)).2 } := by
  unfold processGroup
  simp [hcr, hr]

/-- C7: the relocate ("move") policy. (a) If the target folder is missing
and cannot be created, the whole run downgrades to list mode: the
filesystem is unchanged and zero moves are reported. (b) The first
element of a group (not repeated among the candidates) is never moved:
it keeps its inode mapping. (c) A candidate still present on disk is
moved to target/basename with a numeric suffix appended before the
extension and incremented until the first free name: after the step the
candidate's inode sits at that name, the candidate's own path is gone,
and the moved counter advances by one. (d) A candidate no longer on disk
is skipped entirely. -/
theorem c7_relocate (fs : FS) (groups : List (String × List String))
    (target : String) (responses : List String) :
    (pathExists fs target = false → target ∈ fs.mkdirFail →
      (handle_duplicates fs groups "move" target responses).fs = fs ∧
      (handle_duplicates fs groups "move" target responses).moved = 0) ∧
    (∀ (st : DupState) (hd orig : String) (rest : List String) (i : Nat),
      Wf st.fs → st.crashed = false → orig ∉ rest → isFile st.fs orig = some i →
      isFile (processGroup "move" target st (hd, orig :: rest)).fs orig = some i) ∧
    (∀ (fs0 : FS) (n : Nat) (c : String) (i : Nat), Wf fs0 → isFile fs0 c = some i →
      ∃ (stem ext : List Char) (J : Nat),
        splitext (joinPath target (basename c)) = (⟨target.data ++ '/' :: stem⟩, ⟨ext⟩) ∧
        stem ++ ext = (basename c).data ∧
        pathExists fs0 (candAt ⟨target.data ++ '/' :: stem⟩ ⟨ext⟩
          (joinPath target (basename c)) J) = false ∧
        (∀ j, j < J → pathExists fs0 (candAt ⟨target.data ++ '/' :: stem⟩ ⟨ext⟩
          (joinPath target (basename c)) j) = true) ∧
        isFile (moveCandidate target (fs0, n) c).1 (candAt ⟨target.data ++ '/' :: stem⟩ ⟨ext⟩
          (joinPath target (basename c)) J) = some i ∧
        isFile (moveCandidate target (fs0, n) c).1 c = none ∧
        (moveCandidate target (fs0, n) c).2 = n + 1) ∧
    (∀ (fs0 : FS) (n : Nat) (c : String), pathExists fs0 c = false →
      moveCandidate target (fs0, n) c = (fs0, n)) := by
  refine ⟨?_, ?_, ?_, ?_⟩
  · intro hne hmk
    unfold handle_duplicates
    by_cases hg : groups = []
    · simp [hg]
    · rw [if_neg hg]
      rw [show (if "move" = "move" ∧ pathExists fs target = false then
          if target ∈ fs.mkdirFail then (fs, "list") else (addDir fs target, "move")
        else (fs, "move")) = ((fs, "list") : FS × String) from by
          rw [if_pos ⟨rfl, hne⟩, if_pos hmk]]
      obtain ⟨e1, e2, _⟩ := foldl_processGroup_inert "list" target (by decide) (by decide)
        groups ⟨fs, responses, 0, 0, false⟩
      exact ⟨e1, e2⟩
  · intro st hd orig rest i hwf hcr hno ho
    by_cases hr : rest = []
    · unfold processGroup
      simp only [hcr, Bool.false_eq_true, if_false, hr]
      simpa using ho
    · rw [processGroup_move_eq target st hd orig rest hcr hr]
      exact foldl_moveCandidate_orig target rest (st.fs, st.moved) orig hwf hno ho
  · intro fs0 n c i hwf hc
    obtain ⟨stem, ext, J, hsp, hcat, hJfree, hJocc, hstep, hdst, hsrc⟩ :=
      moveCandidate_spec target fs0 n c hwf hc
    exact ⟨stem, ext, J, hsp, hcat, hJfree, hJocc, hdst, hsrc, by rw [hstep]⟩
  · intro fs0 n c hne
    unfold moveCandidate
    rw [if_pos hne]

/-- Witness for C7: a failing target folder downgrades the run (nothing
moves), and a vanished candidate is skipped. -/
theorem c7_witness :
    ((handle_duplicates fsMkFail [("h", ["/p/a.jpg", "/p/b.jpg"])] "move" "/dup" []).fs =
        fsMkFail ∧
      (handle_duplicates fsMkFail [("h", ["/p/a.jpg", "/p/b.jpg"])] "move" "/dup" []).moved =
        0) ∧
    moveCandidate "/dup" (fsDupTarget, 0) "/gone.jpg" = (fsDupTarget, 0) :=
  ⟨(c7_relocate fsMkFail [("h", ["/p/a.jpg", "/p/b.jpg"])] "/dup" []).1
      (by decide) (by decide),
    (c7_relocate fsMkFail [("h", ["/p/a.jpg", "/p/b.jpg"])] "/dup" []).2.2.2
      fsDupTarget 0 "/gone.jpg" (by decide)⟩

/-! Lemmas towards idempotence of the sorter (claim C1). -/

theorem get_photo_date_frame {fs fs1 : FS} {q : String}
    (hf : isFile fs1 q = isFile fs q) (hm : fs1.meta = fs.meta) :
    get_photo_date fs1 q = get_photo_date fs q := by
  unfold get_photo_date
  rw [hf, hm]

theorem get_photo_date_congr {fs fs1 : FS} {p q : String} {i : Nat}
    (hp : isFile fs p = some i) (hq : isFile fs1 q = some i) (hm : fs1.meta = fs.meta) :
    get_photo_date fs1 q = get_photo_date fs p := by
  unfold get_photo_date
  rw [hp, hq, hm]

theorem get_photo_date_none_of_isFile_none {fs : FS} {p : String}
    (h : isFile fs p = none) : get_photo_date fs p = none := by
  unfold get_photo_date
  rw [h]

theorem isFile_of_date_some {fs : FS} {p : String} {d : DateTime}
    (h : get_photo_date fs p = some d) : ∃ i, isFile fs p = some i := by
  cases hf : isFile fs p with
  | some i => exact ⟨i, rfl⟩
  | none => rw [get_photo_date_none_of_isFile_none hf] at h; cases h

theorem addDir_wf {fs : FS} (hwf : Wf fs) {d : String} (hd : isFile fs d = none) :
    Wf (addDir fs d) := by
  unfold addDir
  by_cases h : d ∈ fs.dirs
  · rw [if_pos h]
    exact hwf
  · rw [if_neg h]
    refine ⟨hwf.1, hwf.2.1, ?_⟩
    intro pr hpr hmem
    rcases List.mem_cons.mp hmem with hx | hx
    · exact alookup_eq_none_iff.mp hd (hx ▸ List.mem_map.mpr ⟨pr, hpr, rfl⟩)
    · exact hwf.2.2 pr hpr hx

theorem makedirs3_none_elim {fs : FS} {dest yF mF dF : String}
    (h : makedirs3 fs dest yF mF dF = none) :
    dF ∉ fs.dirs ∧ (dF ∈ fs.mkdirFail ∨ (isFile fs dest).isSome = true ∨
      (isFile fs yF).isSome = true ∨ (isFile fs mF).isSome = true ∨
      (isFile fs dF).isSome = true) := by
  unfold makedirs3 at h
  by_cases hd : dF ∈ fs.dirs
  · rw [if_pos hd] at h
    cases h
  · rw [if_neg hd] at h
    by_cases hf : dF ∈ fs.mkdirFail ∨ (isFile fs dest).isSome = true ∨
        (isFile fs yF).isSome = true ∨ (isFile fs mF).isSome = true ∨
        (isFile fs dF).isSome = true
    · exact ⟨hd, hf⟩
    · rw [if_neg hf] at h
      cases h

theorem makedirs3_not_fail {fs fs1 : FS} {dest yF mF dF : String}
    (h : makedirs3 fs dest yF mF dF = some fs1) (hd : dF ∉ fs.dirs) :
    dF ∉ fs.mkdirFail := by
  unfold makedirs3 at h
  rw [if_neg hd] at h
  by_cases hf : dF ∈ fs.mkdirFail ∨ (isFile fs dest).isSome = true ∨
      (isFile fs yF).isSome = true ∨ (isFile fs mF).isSome = true ∨
      (isFile fs dF).isSome = true
  · rw [if_pos hf] at h
    cases h
  · exact fun hm => hf (Or.inl hm)

theorem pad2_no_slash (n : Nat) : '/' ∉ (pad2 n).data := by
  unfold pad2
  by_cases h : n < 10
  · rw [if_pos h]
    intro hm
    rw [String.data_append] at hm
    rcases List.mem_append.mp hm with hm | hm
    · exact absurd hm (by decide)
    · exact repr_no_slash n hm
  · rw [if_neg h]
    exact repr_no_slash n

theorem yearDir_data (dest : String) (d : DateTime) :
    (yearDir dest d).data = dest.data ++ '/' :: (Nat.repr d.year).data := by
  unfold yearDir
  rw [joinPath_data]

theorem monthDir_data (dest : String) (d : DateTime) :
    (monthDir dest d).data =
      dest.data ++ '/' :: ((Nat.repr d.year).data ++ '/' :: (pad2 d.month).data) := by
  unfold monthDir
  rw [joinPath_data, yearDir_data]
  simp

theorem dayDir_data (dest : String) (d : DateTime) :
    (dayDir dest d).data = dest.data ++ '/' :: ((Nat.repr d.year).data ++ '/' ::
      ((pad2 d.month).data ++ '/' :: (pad2 d.day).data)) := by
  unfold dayDir
  rw [joinPath_data, monthDir_data]
  simp

theorem countSlash_yearDir (dest : String) (d : DateTime) :
    (yearDir dest d).data.count '/' = dest.data.count '/' + 1 := by
  rw [yearDir_data]
  simp only [List.count_append, List.count_cons_self,
    List.count_eq_zero.mpr (repr_no_slash d.year)]

theorem countSlash_monthDir (dest : String) (d : DateTime) :
    (monthDir dest d).data.count '/' = dest.data.count '/' + 2 := by
  rw [monthDir_data]
  simp only [List.count_append, List.count_cons_self,
    List.count_eq_zero.mpr (repr_no_slash d.year),
    List.count_eq_zero.mpr (pad2_no_slash d.month)]

theorem countSlash_dayDir (dest : String) (d : DateTime) :
    (dayDir dest d).data.count '/' = dest.data.count '/' + 3 := by
  rw [dayDir_data]
  simp only [List.count_append, List.count_cons_self,
    List.count_eq_zero.mpr (repr_no_slash d.year),
    List.count_eq_zero.mpr (pad2_no_slash d.month),
    List.count_eq_zero.mpr (pad2_no_slash d.day)]

theorem noShallow_dest {fs : FS} {dest : String} (hns : NoShallowFiles fs dest) :
    isFile fs dest = none := by
  cases h : isFile fs dest with
  | none => rfl
  | some i => exact absurd rfl (hns _ (alookup_eq_some_mem h)).1

theorem noShallow_under {fs : FS} {dest : String} (hns : NoShallowFiles fs dest)
    (rest : List Char) (hc : rest.count '/' < 3) :
    isFile fs ⟨dest.data ++ '/' :: rest⟩ = none := by
  cases h : isFile fs ⟨dest.data ++ '/' :: rest⟩ with
  | none => rfl
  | some i =>
    exfalso
    have hmem := alookup_eq_some_mem h
    have h2 := (hns _ hmem).2
    have hpref : List.IsPrefix (dest.data ++ ['/'])
        (String.data ⟨dest.data ++ '/' :: rest⟩) := ⟨rest, by simp⟩
    have h3 := h2 hpref
    have hdrop : (String.data ⟨dest.data ++ '/' :: rest⟩).drop (dest.data.length + 1) =
        rest := by
      show (dest.data ++ '/' :: rest).drop (dest.data.length + 1) = rest
      have h4 := List.drop_left (dest.data ++ ['/']) rest
      simpa using h4
    rw [hdrop] at h3
    omega

theorem noShallow_levels {fs : FS} {dest : String} (hns : NoShallowFiles fs dest)
    (d : DateTime) :
    isFile fs (yearDir dest d) = none ∧ isFile fs (monthDir dest d) = none ∧
      isFile fs (dayDir dest d) = none := by
  refine ⟨?_, ?_, ?_⟩
  · have h := noShallow_under hns (Nat.repr d.year).data (by
      rw [List.count_eq_zero.mpr (repr_no_slash d.year)]
      omega)
    have he : yearDir dest d = ⟨dest.data ++ '/' :: (Nat.repr d.year).data⟩ :=
      String.ext (by rw [yearDir_data])
    rw [he]
    exact h
  · have h := noShallow_under hns
      ((Nat.repr d.year).data ++ '/' :: (pad2 d.month).data) (by
        simp only [List.count_append, List.count_cons_self,
          List.count_eq_zero.mpr (repr_no_slash d.year),
          List.count_eq_zero.mpr (pad2_no_slash d.month)]
        omega)
    have he : monthDir dest d =
        ⟨dest.data ++ '/' :: ((Nat.repr d.year).data ++ '/' :: (pad2 d.month).data)⟩ :=
      String.ext (by rw [monthDir_data])
    rw [he]
    exact h
  · have h := noShallow_under hns
      ((Nat.repr d.year).data ++ '/' :: ((pad2 d.month).data ++ '/' :: (pad2 d.day).data))
      (by
        simp only [List.count_append, List.count_cons_self,
          List.count_eq_zero.mpr (repr_no_slash d.year),
          List.count_eq_zero.mpr (pad2_no_slash d.month),
          List.count_eq_zero.mpr (pad2_no_slash d.day)]
        omega)
    have he : dayDir dest d = ⟨dest.data ++ '/' :: ((Nat.repr d.year).data ++ '/' ::
        ((pad2 d.month).data ++ '/' :: (pad2 d.day).data))⟩ :=
      String.ext (by rw [dayDir_data])
    rw [he]
    exact h

theorem noShallow_of_files_eq {fs fs1 : FS} {dest : String} (hf : fs1.files = fs.files)
    (hns : NoShallowFiles fs dest) : NoShallowFiles fs1 dest := by
  intro pr hpr
  exact hns pr (hf ▸ hpr)

theorem noShallow_move (fs : FS) (dest p : String) (d : DateTime) (nm : String)
    (hns : NoShallowFiles fs dest) (hnm : '/' ∉ nm.data) :
    NoShallowFiles (moveFile fs p (joinPath (dayDir dest d) nm)) dest := by
  unfold moveFile
  cases hsrc : alookup fs.files p with
  | none => exact hns
  | some i =>
    intro pr hpr
    rcases List.mem_cons.mp hpr with hh | hh
    · subst hh
      constructor
      · intro he
        have hdl := congrArg List.length (congrArg String.data he)
        rw [joinPath_data, dayDir_data] at hdl
        simp at hdl
      · intro _
        have hdata : (joinPath (dayDir dest d) nm).data =
            (dest.data ++ ['/']) ++ ((Nat.repr d.year).data ++ '/' ::
              ((pad2 d.month).data ++ '/' :: ((pad2 d.day).data ++ '/' :: nm.data))) := by
          rw [joinPath_data, dayDir_data]
          simp
        show 3 ≤ ((joinPath (dayDir dest d) nm).data.drop (dest.data.length + 1)).count '/'
        rw [hdata]
        have hdrop := List.drop_left (dest.data ++ ['/'])
          ((Nat.repr d.year).data ++ '/' ::
            ((pad2 d.month).data ++ '/' :: ((pad2 d.day).data ++ '/' :: nm.data)))
        rw [show (dest.data ++ ['/']).length = dest.data.length + 1 by simp] at hdrop
        rw [hdrop]
        simp only [List.count_append, List.count_cons_self,
          List.count_eq_zero.mpr (repr_no_slash d.year),
          List.count_eq_zero.mpr (pad2_no_slash d.month),
          List.count_eq_zero.mpr (pad2_no_slash d.day),
          List.count_eq_zero.mpr hnm]
        omega
    · exact hns pr ((aerase_sublist fs.files p).mem hh)

theorem pathExists_true_of_grow {fs fs1 : FS} (hfl : fs1.files = fs.files)
    (hmono : ∀ x ∈ fs.dirs, x ∈ fs1.dirs) {q : String} (h : pathExists fs q = true) :
    pathExists fs1 q = true := by
  unfold pathExists isDir isFile at h ⊢
  rw [hfl]
  cases hf : alookup fs.files q with
  | some i => rfl
  | none =>
    rw [hf] at h
    simp only [Option.isSome_none, Bool.false_or] at h ⊢
    exact decide_eq_true (hmono _ (of_decide_eq_true h))

theorem pathExists_moveFile_other {fs : FS} {src dst q : String}
    (hq1 : q ≠ src) (hq2 : q ≠ dst) :
    pathExists (moveFile fs src dst) q = pathExists fs q := by
  unfold pathExists
  rw [moveFile_frame hq1 hq2]
  unfold isDir
  rw [moveFile_dirs]

theorem candAt_as_join (dayF bn : String) (stem ext : List Char)
    (hb : '/' ∉ bn.data) (hstem : '/' ∉ stem) (hext : '/' ∉ ext) (J : Nat) :
    ∃ nm : String, candAt ⟨dayF.data ++ '/' :: stem⟩ ⟨ext⟩ (joinPath dayF bn) J =
      joinPath dayF nm ∧ '/' ∉ nm.data := by
  cases J with
  | zero => exact ⟨bn, rfl, hb⟩
  | succ k =>
    refine ⟨⟨stem ++ '_' :: ((Nat.repr (k + 1)).data ++ ext)⟩,
      candAt_succ_join dayF bn stem ext k, ?_⟩
    intro hc
    rcases List.mem_append.mp hc with hc | hc
    · exact hstem hc
    · rcases List.mem_cons.mp hc with hc | hc
      · cases hc
      · rcases List.mem_append.mp hc with hc | hc
        · exact repr_no_slash _ hc
        · exact hext hc

theorem stable_makedirs {fs fs1 : FS} {dest : String} {d0 : DateTime}
    (hmk : makedirs3 fs dest (yearDir dest d0) (monthDir dest d0) (dayDir dest d0) = some fs1)
    {x : String} (hx : Stable dest fs x) : Stable dest fs1 x := by
  obtain ⟨hfl, hme, hmf, hdF, hmono, hsub, hold⟩ := makedirs3_some hmk
  have hfe : ∀ q, isFile fs1 q = isFile fs q := fun q => by
    unfold isFile
    rw [hfl]
  have hde : ∀ q, get_photo_date fs1 q = get_photo_date fs q := fun q =>
    get_photo_date_frame (hfe q) hme
  by_cases hd0 : dayDir dest d0 ∈ fs.dirs
  · rw [hold hd0]
    exact hx
  · have hnf : dayDir dest d0 ∉ fs.mkdirFail := makedirs3_not_fail hmk hd0
    rcases hx with h1 | ⟨h2a, h2b⟩ | ⟨d, hd, hnd, hmfq⟩ | ⟨d, i, hd, hi, hday, hself⟩
    · by_cases hpe1 : pathExists fs1 x = true
      · right
        left
        refine ⟨hpe1, ?_⟩
        rw [hde]
        exact get_photo_date_none_of_isFile_none (isFile_not_of_exists_false h1)
      · left
        cases h : pathExists fs1 x
        · rfl
        · exact absurd h hpe1
    · right
      left
      exact ⟨pathExists_true_of_grow hfl hmono h2a, by rw [hde]; exact h2b⟩
    · right
      right
      left
      refine ⟨d, by rw [hde]; exact hd, ?_, by rw [hmf]; exact hmfq⟩
      intro hmem
      rcases hsub _ hmem with hm | hm | hm | hm
      · exact hnd hm
      · have hc : (dayDir dest d).data.count '/' = (yearDir dest d0).data.count '/' := by
          rw [hm]
        rw [countSlash_dayDir, countSlash_yearDir] at hc
        omega
      · have hc : (dayDir dest d).data.count '/' = (monthDir dest d0).data.count '/' := by
          rw [hm]
        rw [countSlash_dayDir, countSlash_monthDir] at hc
        omega
      · rw [hm] at hmfq
        exact hnf hmfq
    · right
      right
      right
      exact ⟨d, i, by rw [hde]; exact hd, by rw [hfe]; exact hi, hmono _ hday, hself⟩

theorem stable_moveFile {fs : FS} {dest src dst x : String}
    (hx1 : x ≠ src) (hx2 : x ≠ dst)
    (hx : Stable dest fs x) : Stable dest (moveFile fs src dst) x := by
  have hfe : isFile (moveFile fs src dst) x = isFile fs x := moveFile_frame hx1 hx2
  have hde : get_photo_date (moveFile fs src dst) x = get_photo_date fs x :=
    get_photo_date_frame hfe (moveFile_meta fs src dst)
  have hpe : pathExists (moveFile fs src dst) x = pathExists fs x :=
    pathExists_moveFile_other hx1 hx2
  rcases hx with h1 | ⟨h2a, h2b⟩ | ⟨d, hd, hnd, hmf⟩ | ⟨d, i, hd, hi, hday, hself⟩
  · left
    rw [hpe]
    exact h1
  · right
    left
    exact ⟨by rw [hpe]; exact h2a, by rw [hde]; exact h2b⟩
  · right
    right
    left
    exact ⟨d, by rw [hde]; exact hd, by rw [moveFile_dirs]; exact hnd,
      by rw [moveFile_mkdirFail]; exact hmf⟩
  · right
    right
    right
    exact ⟨d, i, by rw [hde]; exact hd, by rw [hfe]; exact hi,
      by rw [moveFile_dirs]; exact hday, hself⟩

theorem sortStep_placed_noop {dest : String} {st : SortState} {q : String} {i : Nat}
    {d : DateTime}
    (hwf : Wf st.fs) (hq : isFile st.fs q = some i)
    (hd : get_photo_date st.fs q = some d) (hday : dayDir dest d ∈ st.fs.dirs)
    (hself : q = joinPath (dayDir dest d) (basename q)) :
    sortStep dest st q = { st with newPaths := st.newPaths ++ [q] } := by
  have hpe := pathExists_of_isFile hq
  have hmk : makedirs3 st.fs dest (yearDir dest d) (monthDir dest d) (dayDir dest d) =
      some st.fs := by
    unfold makedirs3
    rw [if_pos hday]
  rw [sortStep_resolved hpe hd hmk]
  obtain ⟨stem, ext, hsp, hcat, _, _⟩ :=
    splitext_joinPath (dayDir dest d) (basename q) (basename_no_slash q)
  simp only [hsp]
  rcases sortResolve_spec st.fs q (dayDir dest d) hwf hq stem ext hcat with
    ⟨hr, _⟩ | ⟨J, hr, hfree, _, hnep⟩
  · rw [hr, if_pos ⟨rfl, hpe⟩]
  · exfalso
    cases J with
    | zero =>
      rw [show candAt ⟨(dayDir dest d).data ++ '/' :: stem⟩ ⟨ext⟩
          (joinPath (dayDir dest d) (basename q)) 0 =
          joinPath (dayDir dest d) (basename q) from rfl, ← hself, hpe] at hfree
      cases hfree
    | succ k =>
      exact hnep 0 (Nat.succ_pos _) (by
        rw [show candAt ⟨(dayDir dest d).data ++ '/' :: stem⟩ ⟨ext⟩
            (joinPath (dayDir dest d) (basename q)) 0 =
            joinPath (dayDir dest d) (basename q) from rfl]
        exact hself.symm)

theorem sortStep_noop (dest : String) (st : SortState) (q : String)
    (hwf : Wf st.fs) (hst : Stable dest st.fs q) :
    (sortStep dest st q).fs = st.fs ∧
    (sortStep dest st q).processed = st.processed ∧
    (sortStep dest st q).newPaths = st.newPaths ++ [q] := by
  rcases hst with h1 | ⟨h2a, h2b⟩ | ⟨d, hd, hnd, hmf⟩ | ⟨d, i, hd, hi, hday, hself⟩
  · rw [sortStep_skip_noexist h1]
    exact ⟨rfl, rfl, rfl⟩
  · rw [sortStep_skip_nodate h2a h2b]
    exact ⟨rfl, rfl, rfl⟩
  · obtain ⟨i, hi⟩ := isFile_of_date_some hd
    rw [sortStep_skip_mkdir (pathExists_of_isFile hi) hd (makedirs3_none_eq hnd (Or.inl hmf))]
    exact ⟨rfl, rfl, rfl⟩
  · rw [sortStep_placed_noop hwf hi hd hday hself]
    exact ⟨rfl, rfl, rfl⟩

theorem sortStep_main (dest : String) (st : SortState) (p : String)
    (hwf : Wf st.fs) (hns : NoShallowFiles st.fs dest) :
    Wf (sortStep dest st p).fs ∧
    NoShallowFiles (sortStep dest st p).fs dest ∧
    (∀ x ∈ st.fs.dirs, x ∈ (sortStep dest st p).fs.dirs) ∧
    (∃ u, (sortStep dest st p).newPaths = st.newPaths ++ [u] ∧
      Stable dest (sortStep dest st p).fs u) ∧
    (∀ x, Stable dest st.fs x → Stable dest (sortStep dest st p).fs x) := by
  by_cases hpe0 : pathExists st.fs p = false
  · rw [sortStep_skip_noexist hpe0]
    exact ⟨hwf, hns, fun x hx => hx, ⟨p, rfl, Or.inl hpe0⟩, fun x hx => hx⟩
  · have hpe : pathExists st.fs p = true := by
      cases h : pathExists st.fs p
      · exact absurd h hpe0
      · rfl
    cases hdate : get_photo_date st.fs p with
    | none =>
      rw [sortStep_skip_nodate hpe hdate]
      exact ⟨hwf, hns, fun x hx => hx, ⟨p, rfl, Or.inr (Or.inl ⟨hpe, hdate⟩)⟩,
        fun x hx => hx⟩
    | some d =>
      cases hmk : makedirs3 st.fs dest (yearDir dest d) (monthDir dest d) (dayDir dest d) with
      | none =>
        rw [sortStep_skip_mkdir hpe hdate hmk]
        obtain ⟨hnd, hblock⟩ := makedirs3_none_elim hmk
        obtain ⟨hy, hm2, hd2⟩ := noShallow_levels hns d
        have hdest := noShallow_dest hns
        have hmf : dayDir dest d ∈ st.fs.mkdirFail := by
          rcases hblock with h | h | h | h | h
          · exact h
          · rw [hdest] at h
            cases h
          · rw [hy] at h
            cases h
          · rw [hm2] at h
            cases h
          · rw [hd2] at h
            cases h
        exact ⟨hwf, hns, fun x hx => hx,
          ⟨p, rfl, Or.inr (Or.inr (Or.inl ⟨d, hdate, hnd, hmf⟩))⟩, fun x hx => hx⟩
      | some fs1 =>
        obtain ⟨ip, hip⟩ := isFile_of_date_some hdate
        obtain ⟨hfl, hme, hmfe, hdF1, hmono, hsub, hold⟩ := makedirs3_some hmk
        have hwf1 : Wf fs1 := makedirs3_wf hwf hmk
        have hfe : ∀ q, isFile fs1 q = isFile st.fs q := fun q => by
          unfold isFile
          rw [hfl]
        have hde : ∀ q, get_photo_date fs1 q = get_photo_date st.fs q := fun q =>
          get_photo_date_frame (hfe q) hme
        have hp1 : isFile fs1 p = some ip := by
          rw [hfe]
          exact hip
        have hd1 : get_photo_date fs1 p = some d := by
          rw [hde]
          exact hdate
        rw [sortStep_resolved hpe hdate hmk]
        obtain ⟨stem, ext, hsp, hcat, hstem, hext⟩ :=
          splitext_joinPath (dayDir dest d) (basename p) (basename_no_slash p)
        simp only [hsp]
        rcases sortResolve_spec fs1 p (dayDir dest d) hwf1 hp1 stem ext hcat with
          ⟨hr, hr0⟩ | ⟨J, hr, hfree, hocc, hnep⟩
        · rw [hr, if_pos ⟨rfl, pathExists_of_isFile hp1⟩]
          exact ⟨hwf1, noShallow_of_files_eq hfl hns, hmono,
            ⟨p, rfl, Or.inr (Or.inr (Or.inr ⟨d, ip, hd1, hp1, hdF1, hr0.symm⟩))⟩,
            fun x hx => stable_makedirs hmk hx⟩
        · rw [hr, if_neg (by
            rintro ⟨hcp, hce⟩
            rw [← hcp, pathExists_of_isFile hp1] at hfree
            cases hfree)]
          obtain ⟨nm, hnmj, hnms⟩ := candAt_as_join (dayDir dest d) (basename p) stem ext
            (basename_no_slash p) hstem hext J
          obtain ⟨hdstl, _, _⟩ := moveFile_lookup (candAt
            ⟨(dayDir dest d).data ++ '/' :: stem⟩ ⟨ext⟩
            (joinPath (dayDir dest d) (basename p)) J) hwf1.1 hp1
          have hstab_r : Stable dest (moveFile fs1 p (candAt
              ⟨(dayDir dest d).data ++ '/' :: stem⟩ ⟨ext⟩
              (joinPath (dayDir dest d) (basename p)) J)) (candAt
              ⟨(dayDir dest d).data ++ '/' :: stem⟩ ⟨ext⟩
              (joinPath (dayDir dest d) (basename p)) J) := by
            refine Or.inr (Or.inr (Or.inr ⟨d, ip, ?_, hdstl, ?_, ?_⟩))
            · rw [get_photo_date_congr hip hdstl (by rw [moveFile_meta]; exact hme)]
              exact hdate
            · rw [moveFile_dirs]
              exact hdF1
            · rw [hnmj, basename_join hnms]
          refine ⟨moveFile_wf hwf1 hfree, ?_, ?_, ⟨_, rfl, hstab_r⟩, ?_⟩
          · rw [hnmj]
            exact noShallow_move fs1 dest p d nm (noShallow_of_files_eq hfl hns) hnms
          · intro x hx
            rw [moveFile_dirs]
            exact hmono x hx
          · intro x hx
            have hx1 : Stable dest fs1 x := stable_makedirs hmk hx
            by_cases hxp : x = p
            · subst hxp
              exfalso
              rcases hx1 with h1 | ⟨h2a, h2b⟩ | ⟨d2, hdd2, hnd2, hmf2⟩ |
                ⟨d2, i2, hdd2, hi2, hday2, hself2⟩
              · rw [pathExists_of_isFile hp1] at h1
                cases h1
              · rw [hd1] at h2b
                cases h2b
              · rw [hd1] at hdd2
                obtain rfl : d = d2 := Option.some.inj hdd2
                exact hnd2 hdF1
              · rw [hd1] at hdd2
                obtain rfl : d = d2 := Option.some.inj hdd2
                cases J with
                | zero =>
                  rw [show candAt ⟨(dayDir dest d).data ++ '/' :: stem⟩ ⟨ext⟩
                      (joinPath (dayDir dest d) (basename x)) 0 =
                      joinPath (dayDir dest d) (basename x) from rfl, ← hself2,
                    pathExists_of_isFile hp1] at hfree
                  cases hfree
                | succ k =>
                  exact hnep 0 (Nat.succ_pos _) (by
                    rw [show candAt ⟨(dayDir dest d).data ++ '/' :: stem⟩ ⟨ext⟩
                        (joinPath (dayDir dest d) (basename x)) 0 =
                        joinPath (dayDir dest d) (basename x) from rfl]
                    exact hself2.symm)
            · by_cases hxr : x = candAt ⟨(dayDir dest d).data ++ '/' :: stem⟩ ⟨ext⟩
                  (joinPath (dayDir dest d) (basename p)) J
              · rw [hxr]
                exact hstab_r
              · exact stable_moveFile hxp hxr hx1

theorem sortFold_main (dest : String) :
    ∀ (ps : List String) (st : SortState),
    Wf st.fs → NoShallowFiles st.fs dest →
    (∀ q ∈ st.newPaths, Stable dest st.fs q) →
    Wf (ps.foldl (sortStep dest) st).fs ∧
    NoShallowFiles (ps.foldl (sortStep dest) st).fs dest ∧
    (∀ x ∈ st.fs.dirs, x ∈ (ps.foldl (sortStep dest) st).fs.dirs) ∧
    (∀ q ∈ (ps.foldl (sortStep dest) st).newPaths,
      Stable dest (ps.foldl (sortStep dest) st).fs q) := by
  intro ps
  induction ps with
  | nil =>
    intro st h1 h2 h3
    exact ⟨h1, h2, fun x hx => hx, h3⟩
  | cons p t ih =>
    intro st h1 h2 h3
    simp only [List.foldl_cons]
    obtain ⟨e1, e2, e3, ⟨u, e4, e5⟩, e6⟩ := sortStep_main dest st p h1 h2
    have h3' : ∀ q ∈ (sortStep dest st p).newPaths,
        Stable dest (sortStep dest st p).fs q := by
      intro q hq
      rw [e4] at hq
      rcases List.mem_append.mp hq with hq | hq
      · exact e6 q (h3 q hq)
      · rw [List.mem_singleton.mp hq]
        exact e5
    obtain ⟨f1, f2, f3, f4⟩ := ih (sortStep dest st p) e1 e2 h3'
    exact ⟨f1, f2, fun x hx => f3 x (e3 x hx), f4⟩

theorem sortFold_noop (dest : String) :
    ∀ (qs : List String) (st : SortState),
    Wf st.fs → (∀ q ∈ qs, Stable dest st.fs q) →
    (qs.foldl (sortStep dest) st).fs = st.fs ∧
    (qs.foldl (sortStep dest) st).processed = st.processed ∧
    (qs.foldl (sortStep dest) st).newPaths = st.newPaths ++ qs := by
  intro qs
  induction qs with
  | nil =>
    intro st _ _
    exact ⟨rfl, rfl, by simp⟩
  | cons q t ih =>
    intro st hwf hst
    simp only [List.foldl_cons]
    obtain ⟨e1, e2, e3⟩ := sortStep_noop dest st q hwf (hst q (List.mem_cons_self ..))
    have hwf' : Wf (sortStep dest st q).fs := by
      rw [e1]
      exact hwf
    have hst' : ∀ x ∈ t, Stable dest (sortStep dest st q).fs x := by
      intro x hx
      rw [e1]
      exact hst x (List.mem_cons_of_mem _ hx)
    obtain ⟨f1, f2, f3⟩ := ih (sortStep dest st q) hwf' hst'
    refine ⟨f1.trans e1, f2.trans e2, ?_⟩
    rw [f3, e3]
    simp

theorem sort_second_run (dest : String) (ps : List String) (fs0 : FS)
    (hwf : Wf fs0) (hns : NoShallowFiles fs0 dest) (hdd : dest ∈ fs0.dirs) :
    (sort_photos (ps.foldl (sortStep dest) ⟨fs0, 0, 0, []⟩).fs
        (ps.foldl (sortStep dest) ⟨fs0, 0, 0, []⟩).newPaths dest).fs =
      (ps.foldl (sortStep dest) ⟨fs0, 0, 0, []⟩).fs ∧
    (sort_photos (ps.foldl (sortStep dest) ⟨fs0, 0, 0, []⟩).fs
        (ps.foldl (sortStep dest) ⟨fs0, 0, 0, []⟩).newPaths dest).processed = 0 ∧
    (sort_photos (ps.foldl (sortStep dest) ⟨fs0, 0, 0, []⟩).fs
        (ps.foldl (sortStep dest) ⟨fs0, 0, 0, []⟩).newPaths dest).newPaths =
      (ps.foldl (sortStep dest) ⟨fs0, 0, 0, []⟩).newPaths := by
  obtain ⟨h1, h2, h3, h4⟩ := sortFold_main dest ps ⟨fs0, 0, 0, []⟩ hwf hns
    (by intro q hq; cases hq)
  by_cases hq0 : (ps.foldl (sortStep dest) ⟨fs0, 0, 0, []⟩).newPaths = []
  · unfold sort_photos
    rw [if_pos hq0]
    exact ⟨rfl, rfl, hq0.symm⟩
  · have hde : pathExists (ps.foldl (sortStep dest) ⟨fs0, 0, 0, []⟩).fs dest = true := by
      unfold pathExists isDir
      cases hf : isFile (ps.foldl (sortStep dest) ⟨fs0, 0, 0, []⟩).fs dest
      · simp only [Option.isSome_none, Bool.false_or]
        exact decide_eq_true (h3 dest hdd)
      · rfl
    unfold sort_photos
    rw [if_neg hq0, if_pos hde]
    obtain ⟨f1, f2, f3⟩ := sortFold_noop dest
      (ps.foldl (sortStep dest) ⟨fs0, 0, 0, []⟩).newPaths
      ⟨(ps.foldl (sortStep dest) ⟨fs0, 0, 0, []⟩).fs, 0, 0, []⟩ h1 h4
    refine ⟨f1, f2, ?_⟩
    rw [f3]
    simp

/-- C1 (amended): sorting is idempotent on trees whose destination area is
clean. A regular file sitting at the destination root or at the
year/month/day directory levels beneath it can block one file's
`makedirs` and later be sorted away, unblocking a second run (see the
counterexample); `NoShallowFiles` excludes exactly that. Under a
well-formed filesystem with a clean destination area, a second
`sort_photos` run on the tree and path list produced by a first run
changes nothing: same filesystem, zero files moved, same path list. -/
theorem c1_sort_idempotent (fs : FS) (paths : List String) (dest : String)
    (hwf : Wf fs) (hns : NoShallowFiles fs dest) :
    (sort_photos (sort_photos fs paths dest).fs (sort_photos fs paths dest).newPaths
      dest).fs = (sort_photos fs paths dest).fs ∧
    (sort_photos (sort_photos fs paths dest).fs (sort_photos fs paths dest).newPaths
      dest).processed = 0 ∧
    (sort_photos (sort_photos fs paths dest).fs (sort_photos fs paths dest).newPaths
      dest).newPaths = (sort_photos fs paths dest).newPaths := by
  by_cases hp0 : paths = []
  · subst hp0
    simp [sort_photos]
  · by_cases hpe : pathExists fs dest = true
    · have h1 : sort_photos fs paths dest = paths.foldl (sortStep dest) ⟨fs, 0, 0, []⟩ := by
        unfold sort_photos
        rw [if_neg hp0, if_pos hpe]
      have hdd : dest ∈ fs.dirs := by
        have hdf := noShallow_dest hns
        unfold pathExists isDir at hpe
        rw [hdf] at hpe
        simpa using hpe
      rw [h1]
      exact sort_second_run dest paths fs hwf hns hdd
    · have hpe2 : pathExists fs dest = false := by
        cases h : pathExists fs dest
        · rfl
        · exact absurd h hpe
      by_cases hmf : dest ∈ fs.mkdirFail
      · have h1 : sort_photos fs paths dest = ⟨fs, 0, 0, paths⟩ := by
          unfold sort_photos
          rw [if_neg hp0, if_neg (by simp [hpe2]), if_pos hmf]
        rw [h1]
        dsimp only
        rw [h1]
        exact ⟨rfl, rfl, rfl⟩
      · have hdf := noShallow_dest hns
        have h1 : sort_photos fs paths dest =
            paths.foldl (sortStep dest) ⟨addDir fs dest, 0, 0, []⟩ := by
          unfold sort_photos
          rw [if_neg hp0, if_neg (by simp [hpe2]), if_neg hmf]
        rw [h1]
        exact sort_second_run dest paths (addDir fs dest) (addDir_wf hwf hdf)
          (noShallow_of_files_eq (addDir_files fs dest) hns)
          ((addDir_dirs_mem fs dest dest).mpr (Or.inr rfl))

/-- Counterexample to C1 as stated: `/dst/2020/05` is a regular file, so
sorting `/src/a.jpg` (EXIF date 2020-05-17) fails at `makedirs` and skips
it, while the blocking file itself is sorted away by its modification
time; a second run on the produced tree then moves `/src/a.jpg`, so the
second run performs one move, not zero. -/
theorem c1_counterexample :
    (sort_photos fsC1 ["/src/a.jpg", "/dst/2020/05"] "/dst").processed = 1 ∧
    (sort_photos (sort_photos fsC1 ["/src/a.jpg", "/dst/2020/05"] "/dst").fs
      (sort_photos fsC1 ["/src/a.jpg", "/dst/2020/05"] "/dst").newPaths "/dst").processed =
      1 := by
  decide

/-- Witness for C1 at a concrete already-sorted tree. -/
theorem c1_witness :
    (sort_photos (sort_photos fsPlaced ["/root/2020/05/17/a.jpg"] "/root").fs
      (sort_photos fsPlaced ["/root/2020/05/17/a.jpg"] "/root").newPaths "/root").fs =
      (sort_photos fsPlaced ["/root/2020/05/17/a.jpg"] "/root").fs ∧
    (sort_photos (sort_photos fsPlaced ["/root/2020/05/17/a.jpg"] "/root").fs
      (sort_photos fsPlaced ["/root/2020/05/17/a.jpg"] "/root").newPaths "/root").processed =
      0 ∧
    (sort_photos (sort_photos fsPlaced ["/root/2020/05/17/a.jpg"] "/root").fs
      (sort_photos fsPlaced ["/root/2020/05/17/a.jpg"] "/root").newPaths "/root").newPaths =
      (sort_photos fsPlaced ["/root/2020/05/17/a.jpg"] "/root").newPaths :=
  c1_sort_idempotent fsPlaced ["/root/2020/05/17/a.jpg"] "/root" (by decide) (by decide)

end PhotoOrg
